import Mathlib

/-!
Verification development for the legdb embedded graph database.

The Python source (legdb/step.py, legdb/step_builder.py, legdb/entity.py,
legdb/database.py) is shallowly embedded below.  Documents are association
lists from attribute names to values; the value universe distinguishes
primitive values from one-level nested dictionaries, which is exactly the
distinction the source code makes (isinstance(value, dict) in
PynndbFilterStepBase.get_attr_names, and the outer[inner] decomposition in
create_filter_func).  Tables of the storage layer are lists of
(oid, document) pairs; the pynndb cursor primitives consumed by the code
(table.filter with an index and lower == upper, table.indexes, the
duplicate count used by PynndbFilterStepBase.count) are modelled at the
level of index keys: an index key is the tuple of the indexed attributes'
values, and a document missing an indexed attribute is absent from that
index.
-/

/-- Primitive attribute values: strings, numbers, and Python's None. -/
inductive PVal where
  | str (s : String)
  | num (n : Int)
  | pnone
deriving DecidableEq, Repr

/-- Attribute values: a primitive, or a one-level nested dictionary
(the shape PynndbFilterStepBase.get_attr_names distinguishes). -/
inductive Value where
  | p (v : PVal)
  | vdict (entries : List (String × PVal))
deriving DecidableEq, Repr

/-- Document data: an ordered mapping from attribute name to value,
as a pynndb Doc carries it. -/
abbrev PDocData := List (String × Value)

/-- Lookup of an attribute in a document (Python doc[attr], with a missing
key modelled as none). -/
def docGet (d : PDocData) (k : String) : Option Value :=
  List.lookup k d

/-- Nested lookup doc[attr0][attr1]: defined when attr0 holds a nested
dictionary containing attr1. -/
def docGet2 (d : PDocData) (k0 k1 : String) : Option PVal :=
  match docGet d k0 with
  | some (Value.vdict inner) => List.lookup k1 inner
  | _ => none

/-- Characters that act as separators in create_filter_func's decomposition
of an outer[inner] attribute name: the code replaces both brackets by
spaces and then splits on whitespace. -/
def isSep (c : Char) : Bool :=
  c == '[' || c == ']' || c.isWhitespace

/-- An attribute name is clean when it contains no bracket and no
whitespace character; ordinary identifiers are clean. -/
def cleanName (s : String) : Bool :=
  s.toList.all (fun c => !(isSep c))

/-- Split a character list at separator characters, keeping empty
segments; the head segment is returned apart so the result is never
empty. -/
def splitSepsAux : List Char → List Char × List (List Char)
  | [] => ([], [])
  | c :: cs =>
    let r := splitSepsAux cs
    if isSep c then ([], r.1 :: r.2) else (c :: r.1, r.2)

/-- Decomposition of an attribute name performed by create_filter_func:
attr.replace("[", " ").replace("]", " ").split().  Replacing both brackets
by spaces and splitting on whitespace is the same as splitting at bracket
or whitespace characters and dropping empty segments. -/
def decompose (attr : String) : List String :=
  let r := splitSepsAux attr.toList
  (r.1 :: r.2).filterMap (fun l => if l.isEmpty then none else some (String.mk l))

/-- Encoding of a nested attribute name used by get_attr_names:
the Python f-string f"{key0}[{key1}]". -/
def encName (k0 k1 : String) : String :=
  k0 ++ "[" ++ k1 ++ "]"

/-- PynndbFilterStepBase.get_attr_names: the attribute-name set of a
predicate document, with a nested dictionary value contributing one
encoded name outer[inner] per inner key. -/
def getAttrNames (d : PDocData) : Finset String :=
  (d.flatMap (fun kv =>
    match kv.2 with
    | Value.vdict inner => inner.map (fun kw => encName kv.1 kw.1)
    | Value.p _ => [kv.1])).toFinset

/-- One attribute check of the post-filter built by create_filter_func:
a nested name outer[inner] is decomposed and compared at
result_doc[outer][inner], a plain name at result_doc[attr]. -/
def checkAttr (pd rd : PDocData) (attr : String) : Bool :=
  if attr.toList.contains '[' && attr.toList.contains ']' then
    match decompose attr with
    | a0 :: a1 :: _ => decide (docGet2 rd a0 a1 = docGet2 pd a0 a1)
    | _ => false
  else
    decide (docGet rd attr = docGet pd attr)

/-- The filter function create_filter_func builds from a predicate
document and the cached residual attribute set: the candidate passes when
every residual attribute checks equal. -/
def residualOk (toCheck : Finset String) (pd rd : PDocData) : Bool :=
  decide (∀ a ∈ toCheck, checkAttr pd rd a = true)

/-- The specification's match predicate for a predicate document P:
d agrees with P on every attribute P names, nested attributes checked as
d[outer][inner].  This is the set comprehension of the planner-soundness
property, written structurally over P. -/
def specMatches (pd rd : PDocData) : Bool :=
  pd.all (fun kv =>
    match kv.2 with
    | Value.p _ => decide (docGet rd kv.1 = docGet pd kv.1)
    | Value.vdict inner =>
        inner.all (fun kw => decide (docGet2 rd kv.1 kw.1 = docGet2 pd kv.1 kw.1)))

/-- A registered secondary index: its name and its attribute names in key
order (the order of the fields in the index's key template). -/
structure IndexM where
  name : String
  keyAttrs : List String
deriving DecidableEq, Repr

/-- The index key of a document: the tuple of values of the indexed
attributes; none when the document misses one of them, in which case the
document is absent from the index (no null rows). -/
def indexKeyL (attrs : List String) (d : PDocData) : Option (List Value) :=
  attrs.mapM (docGet d)

/-- Index key of a document under a registered index. -/
def indexKey (I : IndexM) (d : PDocData) : Option (List Value) :=
  indexKeyL I.keyAttrs d

/-- Modelled from the spec: the database facade that owns the index
catalog and the planner cache (both initialized empty at open, and
referenced by PynndbFilterStepBase.select_index_and_filter_func as
database attributes that src/legdb/database.py itself never initializes).
The tables field models the storage contents; indexRegistry models the
per-table list of registered indexes in registration order together with
the catalog mapping (table, index name) to attribute names; the two cache
fields model _index_names_by_attr_names and _attrs_to_check_by_attr_names
from step.py, keyed, exactly as in the source, by the attribute-name set
alone. -/
structure DatabaseM where
  tables : List (String × List (Nat × PDocData))
  indexRegistry : List (String × List IndexM)
  indexNamesByAttrNames : List (Finset String × Option String)
  attrsToCheckByAttrNames : List (Finset String × Finset String)

/-- Documents of a table. -/
def tableDocs (db : DatabaseM) (tname : String) : List (Nat × PDocData) :=
  (List.lookup tname db.tables).getD []

/-- Registered indexes of a table, in registration order
(self.table.indexes(txn) in the source). -/
def registryOf (db : DatabaseM) (tname : String) : List IndexM :=
  (List.lookup tname db.indexRegistry).getD []

/-- Resolve an index name against a table's registry. -/
def resolveIndex (db : DatabaseM) (tname iname : String) : Option IndexM :=
  (registryOf db tname).find? (fun I => I.name == iname)

/-- The catalog lookup self.database._index_attrs[(table_name, index_name)]:
the attribute-name set of a registered index. -/
def indexAttrsCatalog (db : DatabaseM) (tname iname : String) : Finset String :=
  ((resolveIndex db tname iname).map (fun I => I.keyAttrs.toFinset)).getD ∅

/-- PynndbFilterStepBase.count: the number of index entries under the key
derived from the predicate document (pynndb's duplicate count for that
key, i.e. the number of table documents whose index key equals the
predicate's). -/
def countEntries (db : DatabaseM) (tname iname : String) (d : PDocData) : Nat :=
  match resolveIndex db tname iname with
  | some I =>
      ((tableDocs db tname).filter
        (fun od => decide (indexKey I od.2 = indexKey I d))).length
  | none => 0

/-- Python's min over the relevant_indexes dict keyed by count: the first
entry, in iteration order, whose count is minimal. -/
def firstMin : List (String × Nat) → Option (String × Nat)
  | [] => none
  | p :: rest =>
    match firstMin rest with
    | none => some p
    | some q => if q.2 < p.2 then some q else some p

/-- The relevant_indexes dict of select_index_and_filter_func: every
registered index of the step's table, in registration order, whose
attribute set is contained in the predicate's attribute-name set, paired
with its entry count under the derived key. -/
def relevantIndexes (db : DatabaseM) (tname : String) (doc : PDocData) :
    List (String × Nat) :=
  ((registryOf db tname).map IndexM.name).filterMap (fun n =>
    if indexAttrsCatalog db tname n ⊆ getAttrNames doc then
      some (n, countEntries db tname n doc)
    else none)

/-- The cache-miss branch of select_index_and_filter_func: record the
first index of minimal count (or none) and the residual attribute set in
both caches, keyed by the attribute-name set alone. -/
def selectRecompute (db : DatabaseM) (tname : String) (doc : PDocData) : DatabaseM :=
  let A := getAttrNames doc
  match firstMin (relevantIndexes db tname doc) with
  | some p =>
      { db with
        indexNamesByAttrNames := (A, some p.1) :: db.indexNamesByAttrNames,
        attrsToCheckByAttrNames :=
          (A, A \ indexAttrsCatalog db tname p.1) :: db.attrsToCheckByAttrNames }
  | none =>
      { db with
        indexNamesByAttrNames := (A, none) :: db.indexNamesByAttrNames,
        attrsToCheckByAttrNames := (A, A) :: db.attrsToCheckByAttrNames }

/-- PynndbFilterStepBase.select_index_and_filter_func: on a cache miss
for the predicate's attribute-name set, recompute and cache; then answer
from the cache.  The returned residual set stands for the filter function
create_filter_func builds exactly when it is nonempty. -/
def selectIndexAndFilterFunc (db : DatabaseM) (tname : String) (doc : PDocData) :
    DatabaseM × Option String × Finset String :=
  let A := getAttrNames doc
  let db' :=
    match List.lookup A db.attrsToCheckByAttrNames with
    | some _ => db
    | none => selectRecompute db tname doc
  (db', (List.lookup A db'.indexNamesByAttrNames).getD none,
        (List.lookup A db'.attrsToCheckByAttrNames).getD A)

/-- pynndb Table.filter as the step engine uses it: with an index and
lower == upper == doc, the documents whose index key equals the
predicate's key; without an index, a full scan; the optional expression
post-filters. -/
def tableFilter (docs : List (Nat × PDocData)) (I? : Option IndexM)
    (lower : PDocData) (expr : Option (PDocData → Bool)) : List (Nat × PDocData) :=
  let base := match I? with
    | some I => docs.filter (fun od => decide (indexKey I od.2 = indexKey I lower))
    | none => docs
  match expr with
  | some f => base.filter (fun od => f od.2)
  | none => base

/-- Step.process: skip an entity whose oid was already emitted, otherwise
record the oid and emit.  gateRun threads the persistent output_oids set
through a list of candidates. -/
def gateRun (seen : Finset Nat) : List (Nat × PDocData) → Finset Nat × List (Nat × PDocData)
  | [] => (seen, [])
  | od :: rest =>
    if od.1 ∈ seen then gateRun seen rest
    else
      let r := gateRun (insert od.1 seen) rest
      (r.1, od :: r.2)

/-- PynndbFilterStep.__iter__: pop each queued predicate in FIFO order; a
none entry is the full-scan sentinel (no index, no filter); a concrete
predicate goes through select_index_and_filter_func and the table filter;
every produced document passes the Step.process dedup gate, whose
output_oids set persists across predicates. -/
def runFilterPreds (db : DatabaseM) (tname : String) (seen : Finset Nat) :
    List (Option PDocData) → DatabaseM × Finset Nat × List (Nat × PDocData)
  | [] => (db, seen, [])
  | p :: rest =>
    match p with
    | none =>
        let g := gateRun seen (tableDocs db tname)
        let r := runFilterPreds db tname g.1 rest
        (r.1, r.2.1, g.2 ++ r.2.2)
    | some P =>
        let s := selectIndexAndFilterFunc db tname P
        let toCheck := s.2.2
        let ffunc : Option (PDocData → Bool) :=
          if toCheck = ∅ then none else some (fun rd => residualOk toCheck P rd)
        let I? := s.2.1.bind (resolveIndex s.1 tname)
        let g := gateRun seen (tableFilter (tableDocs s.1 tname) I? P ffunc)
        let r := runFilterPreds s.1 tname g.1 rest
        (r.1, r.2.1, g.2 ++ r.2.2)

/-- Python dict merge {**a, **b}: the keys of a in order, their values
overridden by b where b binds the same key, followed by the keys of b not
in a, in b's order. -/
def dictMerge (a b : PDocData) : PDocData :=
  a.map (fun kv => (kv.1, ((List.lookup kv.1 b).getD kv.2)))
    ++ b.filter (fun kv => (List.lookup kv.1 a).isNone)

/-- State of a PynndbFilterStep: the queued predicate documents, the
step's configured attrs, and the persistent output_oids dedup set. -/
structure FilterStepState where
  docAttrs : List (Option PDocData)
  attrs : Option PDocData
  outputOids : Finset Nat

/-- PynndbFilterStep.__init__: doc_attrs = [self.attrs] if self.attrs else
[None]; a none or empty attrs dict queues the full-scan sentinel. -/
def pynndbFilterStepInit (attrs : Option PDocData) : FilterStepState :=
  { docAttrs := match attrs with
      | some a => if a.isEmpty then [none] else [some a]
      | none => [none],
    attrs := attrs,
    outputOids := ∅ }

/-- PynndbEdgeBaseStep.__init__: the superclass is initialized with
attrs=None (so the queue starts with the full-scan sentinel) and the
step's attrs are assigned afterwards. -/
def pynndbEdgeBaseStepInit (attrs : PDocData) : FilterStepState :=
  { pynndbFilterStepInit none with attrs := some attrs }

/-- PynndbFilterStep.input_attrs: append the seeded keyword arguments
merged with the step's configured attrs ({**kwargs, **self.attrs}, the
step's attrs overriding) to the predicate queue. -/
def inputAttrs (st : FilterStepState) (kwargs : PDocData) : FilterStepState :=
  { st with docAttrs := st.docAttrs ++ [some (dictMerge kwargs (st.attrs.getD []))] }

/-- PynndbEdgeInStep.input_node: seed {end_id: node.oid} merged with the
step's attrs. -/
def edgeInInputNode (st : FilterStepState) (oid : Nat) : FilterStepState :=
  inputAttrs st [("end_id", Value.p (PVal.num oid))]

/-- PynndbEdgeOutStep.input_node: seed {start_id: node.oid} merged with
the step's attrs. -/
def edgeOutInputNode (st : FilterStepState) (oid : Nat) : FilterStepState :=
  inputAttrs st [("start_id", Value.p (PVal.num oid))]

/-- PynndbEdgeAllStep.input_node: seed the start_id predicate, then the
end_id predicate (two predicates per upstream node). -/
def edgeAllInputNode (st : FilterStepState) (oid : Nat) : FilterStepState :=
  inputAttrs (inputAttrs st [("start_id", Value.p (PVal.num oid))])
    [("end_id", Value.p (PVal.num oid))]

/-- StepBuilder.__iter__ emits only the pages produced by the final
compiled executor, and every entity of such a page has passed the final
step's Step.process gate with its persistent output_oids set.  runPages is
that emission: the candidate batches are the successive pages of
candidates reaching the final executor, the gate state is threaded
through all of them, and the pipeline output is the concatenation of the
gated pages. -/
def runPages (seen : Finset Nat) :
    List (List (Nat × PDocData)) → Finset Nat × List (Nat × PDocData)
  | [] => (seen, [])
  | b :: rest =>
    let g := gateRun seen b
    let r := runPages g.1 rest
    (r.1, g.2 ++ r.2)

/-- Declared and lowered pipeline steps of step_builder.py: SourceStep,
HasStep and the edge steps are the declared forms; the pFilter and pEdge
constructors are the lowered PynndbFilterStep / PynndbEdge*Step executors
(carrying the entity class's table name and the configured attrs). -/
inductive BStep where
  | sourceS (table : String)
  | hasS (attrs : PDocData)
  | edgeInS (attrs : PDocData)
  | edgeOutS (attrs : PDocData)
  | edgeAllS (attrs : PDocData)
  | pFilterS (table : String) (attrs : PDocData)
  | pEdgeInS (table : String) (attrs : PDocData)
  | pEdgeOutS (table : String) (attrs : PDocData)
  | pEdgeAllS (table : String) (attrs : PDocData)
deriving DecidableEq, Repr

/-- isinstance(step, PynndbFilterStep): the lowered filter executor and
the lowered edge executors (PynndbEdgeBaseStep subclasses
PynndbFilterStep). -/
def isPFilterFamily : BStep → Bool
  | BStep.pFilterS _ _ => true
  | BStep.pEdgeInS _ _ => true
  | BStep.pEdgeOutS _ _ => true
  | BStep.pEdgeAllS _ _ => true
  | _ => false

/-- Table (entity class) of a lowered executor step. -/
def stepTable : BStep → String
  | BStep.pFilterS t _ => t
  | BStep.pEdgeInS t _ => t
  | BStep.pEdgeOutS t _ => t
  | BStep.pEdgeAllS t _ => t
  | _ => ""

/-- Configured attrs of a lowered executor step. -/
def stepAttrs : BStep → PDocData
  | BStep.pFilterS _ a => a
  | BStep.pEdgeInS _ a => a
  | BStep.pEdgeOutS _ a => a
  | BStep.pEdgeAllS _ a => a
  | _ => []

/-- StepBuilder._compile: the addpattern chain, tried in declaration
order.  A single SourceStep lowers to a filter executor with empty attrs;
a single declared edge step lowers to its executor (over the builder's
edge class); a filter-family executor followed by HasStep fuses into a
plain filter executor with merged attrs ({**step0.attrs, **step1.attrs})
and does not advance; any other window passes through unchanged and
advances. -/
def compileWindow (edgeCls : String) : List BStep → Bool × List BStep
  | [BStep.sourceS t] => (true, [BStep.pFilterS t []])
  | [BStep.edgeInS a] => (true, [BStep.pEdgeInS edgeCls a])
  | [BStep.edgeOutS a] => (true, [BStep.pEdgeOutS edgeCls a])
  | [BStep.edgeAllS a] => (true, [BStep.pEdgeAllS edgeCls a])
  | [s0, BStep.hasS b] =>
    if isPFilterFamily s0 then
      (false, [BStep.pFilterS (stepTable s0) (dictMerge (stepAttrs s0) b)])
    else (true, [s0, BStep.hasS b])
  | w => (true, w)

/-- One windowed sweep of StepBuilder._compile_all for a fixed window
size: rewrite the window at position i, advance when the rule says so,
stop when the position passes the end of the list.  The fuel argument
makes the recursion structural; claim C5 shows a fuel of twice the list
length plus one always suffices. -/
def sweepFuel (edgeCls : String) : Nat → Nat → List BStep → Nat → Option (List BStep)
  | 0, _, _, _ => none
  | fuel + 1, cnt, steps, i =>
    if i < steps.length then
      let w := (steps.drop i).take cnt
      let r := compileWindow edgeCls w
      let steps' := steps.take i ++ r.2 ++ steps.drop (i + cnt)
      if r.1 then sweepFuel edgeCls fuel cnt steps' (i + 1)
      else sweepFuel edgeCls fuel cnt steps' i
    else some steps

/-- StepBuilder._compile_all: the windowed sweep for window sizes 1 and 2
over the declared step list, each pass supplied with fuel that claim C5
proves sufficient. -/
def compileAll (edgeCls : String) (steps : List BStep) : Option (List BStep) :=
  match sweepFuel edgeCls (2 * steps.length + 1) 1 steps 0 with
  | none => none
  | some s1 => sweepFuel edgeCls (2 * s1.length + 1) 2 s1 0

/-- A node entity: the oid plus the free-form primitive attributes of the
user's Node subclass (dataclass fields other than oid). -/
structure NodeRec where
  oid : Option Nat
  attrs : List (String × PVal)
deriving DecidableEq, Repr

/-- An edge entity, with the dataclass fields of legdb.entity.Edge in
declaration order after the inherited oid: start, end, start_id, end_id,
has. -/
structure EdgeRec where
  oid : Option Nat
  start : Option NodeRec
  endN : Option NodeRec
  start_id : Option Nat
  end_id : Option Nat
  has : Option NodeRec
deriving DecidableEq, Repr

/-- Serialization of an optional oid (an opaque byte key, modelled as a
number; Python None serializes to None). -/
def oidPVal : Option Nat → PVal
  | none => PVal.pnone
  | some o => PVal.num o

/-- mashumaro to_dict of a node: the oid field followed by the subclass
attributes, all primitive. -/
def nodeToDict (n : NodeRec) : List (String × PVal) :=
  ("oid", oidPVal n.oid) :: n.attrs

/-- Lift a primitive-valued dictionary into document data. -/
def liftDoc (d : List (String × PVal)) : PDocData :=
  d.map (fun kv => (kv.1, Value.p kv.2))

/-- Serialization of an optional endpoint node inside an edge document:
None stays None, a node serializes to its nested to_dict dictionary. -/
def nodeOptValue : Option NodeRec → Value
  | none => Value.p PVal.pnone
  | some n => Value.vdict (nodeToDict n)

/-- mashumaro to_dict of an edge: the dataclass fields in order.  The
hydrated start / end / has nodes are ordinary dataclass fields and are
serialized like any other field. -/
def edgeToDict (e : EdgeRec) : PDocData :=
  [("oid", Value.p (oidPVal e.oid)),
   ("start", nodeOptValue e.start),
   ("end", nodeOptValue e.endN),
   ("start_id", Value.p (oidPVal e.start_id)),
   ("end_id", Value.p (oidPVal e.end_id)),
   ("has", nodeOptValue e.has)]

/-- Entity._skip_on_to_doc: the empty list.  Neither Node nor Edge in
src/legdb/entity.py overrides it. -/
def skipOnToDoc : List String := []

/-- Entity.to_doc on an already serialized dictionary: pop the oid key
and every key listed in _skip_on_to_doc. -/
def toDocData (d : PDocData) (skip : List String) : PDocData :=
  d.filter (fun kv => !(kv.1 == "oid") && !(skip.contains kv.1))

/-- A pynndb Doc: document data plus the primary key (oid). -/
structure PDoc where
  data : PDocData
  key : Option Nat
deriving DecidableEq, Repr

/-- Entity.to_doc for a node: serialize, pop oid and skip keys, and carry
the popped oid as the Doc key. -/
def nodeToDoc (n : NodeRec) : PDoc :=
  { data := toDocData (liftDoc (nodeToDict n)) skipOnToDoc, key := n.oid }

/-- Entity.to_doc for an edge. -/
def edgeToDoc (e : EdgeRec) : PDoc :=
  { data := toDocData (edgeToDict e) skipOnToDoc, key := e.oid }

/-- Decode a serialized oid value back to an optional oid. -/
def decodeOid : Option Value → Option Nat
  | some (Value.p (PVal.num n)) => some n.toNat
  | _ => none

/-- The field decoder of from_dict: keep the primitive entries. -/
def unliftEntry (kv : String × Value) : Option (String × PVal) :=
  match kv.2 with
  | Value.p pv => some (kv.1, pv)
  | Value.vdict _ => none

/-- mashumaro from_dict of a node: the oid field from the dictionary (its
default None when absent), the remaining primitive entries as the
free-form attributes. -/
def nodeFromDict (d : PDocData) : NodeRec :=
  { oid := decodeOid (List.lookup "oid" d),
    attrs := (d.filter (fun kv => !(kv.1 == "oid"))).filterMap unliftEntry }

/-- Entity.from_doc for a node: None maps to None; otherwise from_dict of
the document data, with the oid then overwritten by the Doc key. -/
def nodeFromDoc (doc? : Option PDoc) : Option NodeRec :=
  doc?.map (fun doc => { nodeFromDict doc.data with oid := doc.key })

/-- The largest oid of a store plus one: the fresh key lmdb's append
assigns. -/
def freshOid (store : List (Nat × PDocData)) : Nat :=
  (store.map Prod.fst).foldr max 0 + 1

/-- Database.save for a node: with no oid, table.append assigns a fresh
oid and the saved doc is turned back into a bound entity; with an oid,
table.save overwrites in place and the call returns None. -/
def dbSaveNode (store : List (Nat × PDocData)) (e : NodeRec) :
    List (Nat × PDocData) × Option NodeRec :=
  match e.oid with
  | none =>
      let oid := freshOid store
      let doc := nodeToDoc e
      (store ++ [(oid, doc.data)], nodeFromDoc (some { data := doc.data, key := some oid }))
  | some o =>
      (store.map (fun p => if p.1 = o then (o, (nodeToDoc e).data) else p), none)

/-- Database.get: None oid answers None before any storage access;
otherwise a point lookup followed by from_doc.  The second component is
the list of storage lookups performed. -/
def dbGetNode (store : List (Nat × PDocData)) (oid? : Option Nat) :
    Option NodeRec × List Nat :=
  match oid? with
  | none => (none, [])
  | some o =>
      (nodeFromDoc ((List.lookup o store).map (fun d => { data := d, key := some o })),
       [o])

/-- Transaction-level events of a read operation: opening a read
transaction, one storage access carrying the transaction it was given,
and releasing a read transaction. -/
inductive TxnEvent where
  | openTxn (t : Nat)
  | access (txn : Option Nat)
  | closeTxn (t : Nat)
deriving DecidableEq, Repr

/-- wrap_reader_yield from database.py: a truthy explicit transaction is
passed through to the generator body verbatim; otherwise the body runs
inside a fresh read transaction entered before the first yielded element
and exited after the last. -/
def wrapReaderYield (body : Option Nat → List TxnEvent) (freshTxn : Nat)
    (txn : Option Nat) : List TxnEvent :=
  match txn with
  | some t => body (some t)
  | none => TxnEvent.openTxn freshTxn :: (body (some freshTxn) ++ [TxnEvent.closeTxn freshTxn])

/-- The storage accesses of Database.range's body, abstracted to the
transaction they carry. -/
def rangeBody (txn : Option Nat) : List TxnEvent := [TxnEvent.access txn]

/-- The storage accesses of Database.seek's body. -/
def seekBody (txn : Option Nat) : List TxnEvent := [TxnEvent.access txn]

/-- The storage accesses of Database.find's body: table.find is called
with whatever txn argument the caller passed. -/
def findBody (txn : Option Nat) : List TxnEvent := [TxnEvent.access txn]

/-- Database.range is decorated with wrap_reader_yield. -/
def dbRange (freshTxn : Nat) (txn : Option Nat) : List TxnEvent :=
  wrapReaderYield rangeBody freshTxn txn

/-- Database.seek is decorated with wrap_reader_yield. -/
def dbSeek (freshTxn : Nat) (txn : Option Nat) : List TxnEvent :=
  wrapReaderYield seekBody freshTxn txn

/-- Database.find carries no wrap_reader_yield decorator: its body runs
with the caller's txn argument unchanged, None included. -/
def dbFind (txn : Option Nat) : List TxnEvent :=
  findBody txn

/-- Recognizer for a transaction-open event. -/
def isOpenEvent : TxnEvent → Bool
  | TxnEvent.openTxn _ => true
  | _ => false

theorem gateRun_spec (l : List (Nat × PDocData)) : ∀ seen : Finset Nat,
    ((gateRun seen l).2.map Prod.fst).Nodup ∧
    (∀ o ∈ (gateRun seen l).2.map Prod.fst, o ∉ seen) ∧
    (∀ o : Nat, o ∈ (gateRun seen l).1 ↔ o ∈ seen ∨ o ∈ (gateRun seen l).2.map Prod.fst) := by
  induction l with
  | nil => intro seen; simp [gateRun]
  | cons od rest ih =>
    intro seen
    by_cases h : od.1 ∈ seen
    · simp only [gateRun, if_pos h]
      obtain ⟨h1, h2, h3⟩ := ih seen
      exact ⟨h1, h2, h3⟩
    · simp only [gateRun, if_neg h]
      obtain ⟨h1, h2, h3⟩ := ih (insert od.1 seen)
      refine ⟨?_, ?_, ?_⟩
      · simp only [List.map_cons, List.nodup_cons]
        exact ⟨fun hmem => (h2 od.1 hmem) (Finset.mem_insert_self _ _), h1⟩
      · intro o ho
        simp only [List.map_cons, List.mem_cons] at ho
        rcases ho with rfl | ho
        · exact h
        · intro hos
          exact h2 o ho (Finset.mem_insert_of_mem hos)
      · intro o
        rw [h3 o]
        simp only [Finset.mem_insert, List.map_cons, List.mem_cons]
        tauto

theorem gateRun_nodup_fresh (l : List (Nat × PDocData)) (h : (l.map Prod.fst).Nodup) :
    ∀ seen : Finset Nat, (∀ o ∈ l.map Prod.fst, o ∉ seen) → (gateRun seen l).2 = l := by
  induction l with
  | nil => intro seen _; rfl
  | cons od rest ih =>
    intro seen hdisj
    have hod : od.1 ∉ seen := hdisj od.1 (by simp)
    simp only [gateRun, if_neg hod]
    simp only [List.map_cons, List.nodup_cons] at h
    have : (gateRun (insert od.1 seen) rest).2 = rest := by
      refine ih h.2 _ ?_
      intro o ho
      simp only [Finset.mem_insert]
      rintro (rfl | hos)
      · exact h.1 ho
      · exact hdisj o (by simp [ho]) hos
    simp [this]

theorem runPages_spec (batches : List (List (Nat × PDocData))) : ∀ seen : Finset Nat,
    ((runPages seen batches).2.map Prod.fst).Nodup ∧
    (∀ o ∈ (runPages seen batches).2.map Prod.fst, o ∉ seen) := by
  induction batches with
  | nil => intro seen; simp [runPages]
  | cons b rest ih =>
    intro seen
    obtain ⟨g1, g2, g3⟩ := gateRun_spec b seen
    obtain ⟨r1, r2⟩ := ih (gateRun seen b).1
    simp only [runPages, List.map_append, List.nodup_append]
    refine ⟨⟨g1, r1, ?_⟩, ?_⟩
    · intro o ho hor
      exact r2 o hor ((g3 o).mpr (Or.inr ho))
    · intro o ho
      rcases List.mem_append.mp ho with ho | ho
      · exact g2 o ho
      · intro hos
        exact r2 o ho ((g3 o).mpr (Or.inl hos))

/-- C3: in any pipeline iterated through StepBuilder.__iter__, each oid
appears at most once in the stream of emitted entities.  The stream is the
concatenation of the pages emitted by the final compiled executor, and
every emitted entity has passed that executor's Step.process gate, whose
output_oids set persists across pages and across re-created iterators;
runPages is exactly this gated emission over an arbitrary sequence of
candidate pages, so its output carries no duplicate oid. -/
theorem pipeline_output_oids_nodup (batches : List (List (Nat × PDocData))) :
    ((runPages ∅ batches).2.map Prod.fst).Nodup :=
  (runPages_spec batches ∅).1

/-- C10: Database.get called with a None oid returns None immediately,
performing no storage lookup, for every store contents (and hence under
any transaction). -/
theorem get_none_oid_no_lookup :
    ∀ store : List (Nat × PDocData), dbGetNode store none = (none, []) :=
  fun _ => rfl

/-- C9 counterexample: Database.find invoked without an explicit
transaction does not run against a newly opened read transaction: its
only storage access carries txn None and its event trace contains no
transaction-open event, contradicting the claim for the find operation. -/
theorem find_without_txn_no_auto_transaction_cex :
    dbFind none = [TxnEvent.access none] ∧ (dbFind none).any isOpenEvent = false :=
  ⟨rfl, rfl⟩

/-- C9 (amended): range and seek are wrapped by wrap_reader_yield, so a
call without an explicit transaction runs its body inside a fresh read
transaction opened before the first yielded element and released after
the last, and a call with an explicit transaction uses exactly that
transaction; find carries no wrapper and always uses the caller's txn
argument verbatim, None included. -/
theorem auto_txn_wrapper_range_seek_not_find :
    ∀ (body : Option Nat → List TxnEvent) (f t : Nat) (txn : Option Nat),
      wrapReaderYield body f none
          = TxnEvent.openTxn f :: (body (some f) ++ [TxnEvent.closeTxn f])
        ∧ wrapReaderYield body f (some t) = body (some t)
        ∧ dbRange f txn = wrapReaderYield rangeBody f txn
        ∧ dbSeek f txn = wrapReaderYield seekBody f txn
        ∧ dbFind txn = findBody txn :=
  fun _ _ _ _ => ⟨rfl, rfl, rfl, rfl, rfl⟩

/-- Concrete edge used to exhibit the serialized endpoints. -/
def edgeExample : EdgeRec :=
  { oid := some 1, start := some { oid := some 2, attrs := [("c", PVal.str "a")] },
    endN := some { oid := some 3, attrs := [("c", PVal.str "b")] },
    start_id := some 2, end_id := some 3, has := none }

/-- C6 counterexample: the document produced by Entity.to_doc for a
concrete edge still contains the hydrated start and end nodes under the
keys start and end (Edge never overrides the empty _skip_on_to_doc), so
the document does not refer to its endpoints only through start_id and
end_id. -/
theorem edge_to_doc_keeps_hydrated_endpoints_cex :
    "start" ∈ (edgeToDoc edgeExample).data.map Prod.fst
      ∧ "end" ∈ (edgeToDoc edgeExample).data.map Prod.fst := by
  decide

/-- C6 (amended): to_doc excludes the oid attribute (for nodes and for
edges), and keeps start_id and end_id; but the hydrated start and end
fields of an edge are serialized into the document rather than stripped
(_skip_on_to_doc is the empty list and Edge does not override it), so the
edge document carries its endpoints both inline and through
start_id / end_id. -/
theorem to_doc_excludes_oid_keeps_endpoints :
    ∀ (n : NodeRec) (e : EdgeRec),
      "oid" ∉ (nodeToDoc n).data.map Prod.fst
        ∧ "oid" ∉ (edgeToDoc e).data.map Prod.fst
        ∧ "start" ∈ (edgeToDoc e).data.map Prod.fst
        ∧ "end" ∈ (edgeToDoc e).data.map Prod.fst
        ∧ "start_id" ∈ (edgeToDoc e).data.map Prod.fst
        ∧ "end_id" ∈ (edgeToDoc e).data.map Prod.fst := by
  intro n e
  refine ⟨?_, ?_, ?_, ?_, ?_, ?_⟩
  · intro h
    simp only [nodeToDoc, toDocData, List.mem_map, List.mem_filter] at h
    obtain ⟨kv, ⟨_, hcond⟩, hfst⟩ := h
    rw [hfst] at hcond
    simp at hcond
  · intro h
    simp only [edgeToDoc, toDocData, List.mem_map, List.mem_filter] at h
    obtain ⟨kv, ⟨_, hcond⟩, hfst⟩ := h
    rw [hfst] at hcond
    simp at hcond
  · simp [edgeToDoc, toDocData, edgeToDict, skipOnToDoc]
  · simp [edgeToDoc, toDocData, edgeToDict, skipOnToDoc]
  · simp [edgeToDoc, toDocData, edgeToDict, skipOnToDoc]
  · simp [edgeToDoc, toDocData, edgeToDict, skipOnToDoc]

theorem firstMin_mem {l : List (String × Nat)} : ∀ {p : String × Nat},
    firstMin l = some p → p ∈ l := by
  induction l with
  | nil => intro p h; simp [firstMin] at h
  | cons q rest ih =>
    intro p h
    cases hr : firstMin rest with
    | none =>
      simp [firstMin, hr] at h
      simp [h]
    | some r =>
      simp only [firstMin, hr] at h
      by_cases hlt : r.2 < q.2
      · rw [if_pos hlt] at h
        simp only [Option.some_inj] at h
        exact List.mem_cons_of_mem _ (h ▸ ih hr)
      · rw [if_neg hlt] at h
        simp only [Option.some_inj] at h
        simp [← h]

theorem firstMin_le {l : List (String × Nat)} : ∀ {p : String × Nat},
    firstMin l = some p → ∀ q ∈ l, p.2 ≤ q.2 := by
  induction l with
  | nil => intro p h; simp [firstMin] at h
  | cons q rest ih =>
    intro p h x hx
    cases hr : firstMin rest with
    | none =>
      have hrest : rest = [] := by
        cases rest with
        | nil => rfl
        | cons y ys =>
          cases hfm : firstMin ys with
          | none => simp [firstMin, hfm] at hr
          | some z => simp only [firstMin, hfm] at hr; split at hr <;> simp at hr
      subst hrest
      simp [firstMin] at h
      simp at hx
      simp [hx, ← h]
    | some r =>
      simp only [firstMin, hr] at h
      have hle := ih hr
      rcases List.mem_cons.mp hx with rfl | hx
      · by_cases hlt : r.2 < x.2
        · rw [if_pos hlt] at h
          simp only [Option.some_inj] at h
          subst h
          omega
        · rw [if_neg hlt] at h
          simp only [Option.some_inj] at h
          simp [← h]
      · by_cases hlt : r.2 < q.2
        · rw [if_pos hlt] at h
          simp only [Option.some_inj] at h
          exact h ▸ hle x hx
        · rw [if_neg hlt] at h
          simp only [Option.some_inj] at h
          subst h
          have := hle x hx
          omega

theorem firstMin_eq_none {l : List (String × Nat)} (h : firstMin l = none) : l = [] := by
  cases l with
  | nil => rfl
  | cons q rest =>
    cases hr : firstMin rest with
    | none => simp [firstMin, hr] at h
    | some r => simp only [firstMin, hr] at h; split at h <;> simp at h

theorem selectRecompute_tables (db : DatabaseM) (tname : String) (P : PDocData) :
    (selectRecompute db tname P).tables = db.tables := by
  unfold selectRecompute
  cases firstMin (relevantIndexes db tname P) <;> rfl

theorem selectRecompute_registry (db : DatabaseM) (tname : String) (P : PDocData) :
    (selectRecompute db tname P).indexRegistry = db.indexRegistry := by
  unfold selectRecompute
  cases firstMin (relevantIndexes db tname P) <;> rfl

theorem select_tables_eq (db : DatabaseM) (tname : String) (P : PDocData) :
    (selectIndexAndFilterFunc db tname P).1.tables = db.tables := by
  simp only [selectIndexAndFilterFunc]
  cases List.lookup (getAttrNames P) db.attrsToCheckByAttrNames with
  | none => simpa using selectRecompute_tables db tname P
  | some _ => rfl

theorem select_registry_eq (db : DatabaseM) (tname : String) (P : PDocData) :
    (selectIndexAndFilterFunc db tname P).1.indexRegistry = db.indexRegistry := by
  simp only [selectIndexAndFilterFunc]
  cases List.lookup (getAttrNames P) db.attrsToCheckByAttrNames with
  | none => simpa using selectRecompute_registry db tname P
  | some _ => rfl

theorem resolveIndex_isSome_of_mem_names {db : DatabaseM} {tname m : String}
    (h : m ∈ (registryOf db tname).map IndexM.name) :
    ∃ I, resolveIndex db tname m = some I ∧ I ∈ registryOf db tname ∧ I.name = m := by
  obtain ⟨I0, hI0, hname⟩ := List.mem_map.mp h
  have : ∃ I, (registryOf db tname).find? (fun I => I.name == m) = some I := by
    rw [← Option.isSome_iff_exists]
    rw [List.find?_isSome]
    exact ⟨I0, hI0, by simp [hname]⟩
  obtain ⟨I, hI⟩ := this
  refine ⟨I, hI, List.mem_of_find?_eq_some hI, ?_⟩
  have := List.find?_some hI
  simpa using this

theorem mem_relevantIndexes {db : DatabaseM} {tname : String} {P : PDocData}
    {p : String × Nat} (h : p ∈ relevantIndexes db tname P) :
    p.1 ∈ (registryOf db tname).map IndexM.name
      ∧ indexAttrsCatalog db tname p.1 ⊆ getAttrNames P
      ∧ p.2 = countEntries db tname p.1 P := by
  obtain ⟨m, hm, hf⟩ := List.mem_filterMap.mp h
  by_cases hc : indexAttrsCatalog db tname m ⊆ getAttrNames P
  · rw [if_pos hc] at hf
    obtain rfl := (Option.some_inj.mp hf).symm
    exact ⟨hm, hc, rfl⟩
  · rw [if_neg hc] at hf
    simp at hf

theorem relevantIndexes_mem_intro {db : DatabaseM} {tname : String} {P : PDocData}
    {m : String} (hm : m ∈ (registryOf db tname).map IndexM.name)
    (hc : indexAttrsCatalog db tname m ⊆ getAttrNames P) :
    (m, countEntries db tname m P) ∈ relevantIndexes db tname P := by
  apply List.mem_filterMap.mpr
  exact ⟨m, hm, by rw [if_pos hc]⟩

theorem selectIndex_fresh_cases (db : DatabaseM) (tname : String) (P : PDocData)
    (hfresh : List.lookup (getAttrNames P) db.attrsToCheckByAttrNames = none) :
    (∃ n I, (selectIndexAndFilterFunc db tname P).2.1 = some n
      ∧ resolveIndex db tname n = some I
      ∧ I.keyAttrs.toFinset ⊆ getAttrNames P
      ∧ (selectIndexAndFilterFunc db tname P).2.2 = getAttrNames P \ I.keyAttrs.toFinset
      ∧ ∀ m ∈ (registryOf db tname).map IndexM.name,
          indexAttrsCatalog db tname m ⊆ getAttrNames P →
          countEntries db tname n P ≤ countEntries db tname m P)
    ∨ ((selectIndexAndFilterFunc db tname P).2.1 = none
      ∧ (selectIndexAndFilterFunc db tname P).2.2 = getAttrNames P
      ∧ ∀ m ∈ (registryOf db tname).map IndexM.name,
          ¬ indexAttrsCatalog db tname m ⊆ getAttrNames P) := by
  simp only [selectIndexAndFilterFunc, hfresh]
  cases hfm : firstMin (relevantIndexes db tname P) with
  | some p =>
    left
    obtain ⟨hmem, hsub, hcnt⟩ := mem_relevantIndexes (firstMin_mem hfm)
    obtain ⟨I, hI, _, hIname⟩ := resolveIndex_isSome_of_mem_names hmem
    have hcat : indexAttrsCatalog db tname p.1 = I.keyAttrs.toFinset := by
      simp [indexAttrsCatalog, hI]
    refine ⟨p.1, I, ?_, hI, hcat ▸ hsub, ?_, ?_⟩
    · simp [selectRecompute, hfm, List.lookup]
    · simp [selectRecompute, hfm, List.lookup, hcat]
    · intro m hm hmc
      have hrel := relevantIndexes_mem_intro hm hmc
      have := firstMin_le hfm _ hrel
      simpa [← hcnt] using this
  | none =>
    right
    have hnil : relevantIndexes db tname P = [] := firstMin_eq_none hfm
    refine ⟨?_, ?_, ?_⟩
    · simp [selectRecompute, hfm, List.lookup]
    · simp [selectRecompute, hfm, List.lookup]
    · intro m hm hmc
      have := relevantIndexes_mem_intro hm hmc
      rw [hnil] at this
      simp at this

theorem select_fresh_cache_written (db : DatabaseM) (tname : String) (P : PDocData)
    (hfresh : List.lookup (getAttrNames P) db.attrsToCheckByAttrNames = none) :
    List.lookup (getAttrNames P)
        (selectIndexAndFilterFunc db tname P).1.attrsToCheckByAttrNames
      = some (selectIndexAndFilterFunc db tname P).2.2 := by
  simp only [selectIndexAndFilterFunc, hfresh]
  cases hfm : firstMin (relevantIndexes db tname P) with
  | some p => simp [selectRecompute, hfm, List.lookup]
  | none => simp [selectRecompute, hfm, List.lookup]

/-- C2 (amended): the planner cache is keyed by the attribute-name set
alone (not by (table, attr_names)), so the guarantee holds for a call on
whose shape the cache holds no entry yet — in particular the first call
with that shape on the database.  For such a call on table T with
predicate attribute-name set A: the residual is cached under A, and
either the returned index name resolves to a registered index of T whose
attribute set is contained in A and whose entry count under the derived
key is minimal among all registered indexes of T whose catalog attribute
set is contained in A, with residual exactly A minus the chosen index's
attribute set; or, when no registered index of T has its attribute set
contained in A, no index is returned and the residual is all of A. -/
theorem select_index_fresh_shape_spec (db : DatabaseM) (tname : String) (P : PDocData)
    (hfresh : List.lookup (getAttrNames P) db.attrsToCheckByAttrNames = none) :
    (List.lookup (getAttrNames P)
        (selectIndexAndFilterFunc db tname P).1.attrsToCheckByAttrNames
      = some (selectIndexAndFilterFunc db tname P).2.2)
    ∧ ((∃ n I, (selectIndexAndFilterFunc db tname P).2.1 = some n
        ∧ resolveIndex db tname n = some I
        ∧ I.keyAttrs.toFinset ⊆ getAttrNames P
        ∧ (selectIndexAndFilterFunc db tname P).2.2 = getAttrNames P \ I.keyAttrs.toFinset
        ∧ ∀ m ∈ (registryOf db tname).map IndexM.name,
            indexAttrsCatalog db tname m ⊆ getAttrNames P →
            countEntries db tname n P ≤ countEntries db tname m P)
      ∨ ((selectIndexAndFilterFunc db tname P).2.1 = none
        ∧ (selectIndexAndFilterFunc db tname P).2.2 = getAttrNames P
        ∧ ∀ m ∈ (registryOf db tname).map IndexM.name,
            ¬ indexAttrsCatalog db tname m ⊆ getAttrNames P)) :=
  ⟨select_fresh_cache_written db tname P hfresh,
   selectIndex_fresh_cases db tname P hfresh⟩

/-- Concrete database for the planner-cache claims: a node table whose
only index is by_c on attribute c, and an edge table whose only index is
by_start_id on start_id. -/
def dbCex : DatabaseM :=
  { tables := [("node", [(1, [("c", Value.p (PVal.str "a"))])]),
               ("edge", [(10, [("c", Value.p (PVal.str "a")),
                               ("start_id", Value.p (PVal.num 1)),
                               ("end_id", Value.p (PVal.num 1))])])],
    indexRegistry := [("node", [{ name := "by_c", keyAttrs := ["c"] }]),
                      ("edge", [{ name := "by_start_id", keyAttrs := ["start_id"] }])],
    indexNamesByAttrNames := [],
    attrsToCheckByAttrNames := [] }

/-- Concrete predicate document with the single attribute c. -/
def predC : PDocData := [("c", Value.p (PVal.str "a"))]

/-- C2 counterexample: after a first call on the node table with
predicate shape {c}, a later call on the edge table with the same
attribute-name set answers from the cache entry left by the node-table
call and returns the index by_c, which is not a registered index of the
edge table — the cache is keyed by the attribute-name set alone, not per
(table, attr_names) as the claim states. -/
theorem select_cross_table_cache_cex :
    (selectIndexAndFilterFunc (selectIndexAndFilterFunc dbCex "node" predC).1
        "edge" predC).2.1 = some "by_c"
      ∧ "by_c" ∉ (registryOf dbCex "edge").map IndexM.name := by
  constructor
  · decide
  · decide

/-- Witness for the amended planner claim at a concrete fresh database. -/
theorem select_index_fresh_shape_witness :
    (List.lookup (getAttrNames predC) dbCex.attrsToCheckByAttrNames = none)
    ∧ ((List.lookup (getAttrNames predC)
          (selectIndexAndFilterFunc dbCex "node" predC).1.attrsToCheckByAttrNames
        = some (selectIndexAndFilterFunc dbCex "node" predC).2.2)
      ∧ ((∃ n I, (selectIndexAndFilterFunc dbCex "node" predC).2.1 = some n
          ∧ resolveIndex dbCex "node" n = some I
          ∧ I.keyAttrs.toFinset ⊆ getAttrNames predC
          ∧ (selectIndexAndFilterFunc dbCex "node" predC).2.2
              = getAttrNames predC \ I.keyAttrs.toFinset
          ∧ ∀ m ∈ (registryOf dbCex "node").map IndexM.name,
              indexAttrsCatalog dbCex "node" m ⊆ getAttrNames predC →
              countEntries dbCex "node" n predC ≤ countEntries dbCex "node" m predC)
        ∨ ((selectIndexAndFilterFunc dbCex "node" predC).2.1 = none
          ∧ (selectIndexAndFilterFunc dbCex "node" predC).2.2 = getAttrNames predC
          ∧ ∀ m ∈ (registryOf dbCex "node").map IndexM.name,
              ¬ indexAttrsCatalog dbCex "node" m ⊆ getAttrNames predC))) :=
  ⟨by decide, select_index_fresh_shape_spec dbCex "node" predC (by decide)⟩

/-- A predicate document is clean when its attribute names are ordinary:
no bracket or whitespace character in any key, and nested entries have
nonempty outer and inner keys (so that the outer[inner] encoding of
get_attr_names is decomposable by create_filter_func). -/
def cleanDoc (d : PDocData) : Bool :=
  d.all (fun kv =>
    match kv.2 with
    | Value.p _ => cleanName kv.1
    | Value.vdict inner =>
        cleanName kv.1 && !kv.1.isEmpty
          && inner.all (fun kw => cleanName kw.1 && !kw.1.isEmpty))

theorem string_data_append (s t : String) : (s ++ t).data = s.data ++ t.data := rfl

theorem string_mk_data (s : String) : String.mk s.data = s := rfl

theorem encName_toList (k0 k1 : String) :
    (encName k0 k1).toList = k0.data ++ '[' :: (k1.data ++ [']']) := by
  show (k0 ++ "[" ++ k1 ++ "]").data = _
  rw [string_data_append, string_data_append, string_data_append]
  simp

theorem splitSepsAux_clean_append (l : List Char) (hl : ∀ c ∈ l, isSep c = false) :
    ∀ r : List Char, splitSepsAux (l ++ r) =
      (l ++ (splitSepsAux r).1, (splitSepsAux r).2) := by
  induction l with
  | nil => intro r; simp
  | cons c cs ih =>
    intro r
    have hc : isSep c = false := hl c (by simp)
    have hcs : ∀ x ∈ cs, isSep x = false := fun x hx => hl x (by simp [hx])
    simp only [List.cons_append, splitSepsAux, hc, Bool.false_eq_true, if_false]
    have := ih hcs r
    simp only [List.append_eq] at this ⊢
    rw [this]

theorem splitSepsAux_open_bracket (r : List Char) :
    splitSepsAux ('[' :: r) = ([], (splitSepsAux r).1 :: (splitSepsAux r).2) := by
  simp [splitSepsAux, isSep]

theorem splitSepsAux_close_bracket (r : List Char) :
    splitSepsAux (']' :: r) = ([], (splitSepsAux r).1 :: (splitSepsAux r).2) := by
  simp [splitSepsAux, isSep]

theorem cleanName_chars {s : String} (h : cleanName s = true) :
    ∀ c ∈ s.data, isSep c = false := by
  intro c hc
  have := List.all_eq_true.mp h c hc
  simpa using this

theorem decompose_encName {k0 k1 : String}
    (h0 : cleanName k0 = true) (h1 : cleanName k1 = true)
    (hne0 : k0.isEmpty = false) (hne1 : k1.isEmpty = false) :
    decompose (encName k0 k1) = [k0, k1] := by
  have hd0 : k0.data ≠ [] := by
    intro h
    have hk : k0 = "" := by
      have := congrArg String.mk h
      simpa [string_mk_data] using this
    rw [hk] at hne0
    exact absurd hne0 (by decide)
  have hd1 : k1.data ≠ [] := by
    intro h
    have hk : k1 = "" := by
      have := congrArg String.mk h
      simpa [string_mk_data] using this
    rw [hk] at hne1
    exact absurd hne1 (by decide)
  unfold decompose
  rw [encName_toList]
  rw [splitSepsAux_clean_append k0.data (cleanName_chars h0)]
  rw [splitSepsAux_open_bracket]
  rw [splitSepsAux_clean_append k1.data (cleanName_chars h1)]
  rw [splitSepsAux_close_bracket]
  simp only [splitSepsAux]
  simp [List.filterMap, List.isEmpty_iff, hd0, hd1, string_mk_data]

theorem clean_no_bracket {a : String} (h : cleanName a = true) :
    a.toList.contains '[' = false := by
  by_contra hc
  have hm : '[' ∈ a.toList := List.elem_iff.mp (by
    cases hcc : a.toList.contains '[' with
    | true => exact hcc
    | false => exact absurd hcc hc)
  have := List.all_eq_true.mp h '[' hm
  simp [isSep] at this

theorem encName_contains_open (k0 k1 : String) :
    (encName k0 k1).toList.contains '[' = true := by
  apply List.elem_iff.mpr
  rw [encName_toList]
  simp

theorem encName_contains_close (k0 k1 : String) :
    (encName k0 k1).toList.contains ']' = true := by
  apply List.elem_iff.mpr
  rw [encName_toList]
  simp

theorem checkAttr_plain {pd rd : PDocData} {a : String} (h : cleanName a = true) :
    checkAttr pd rd a = decide (docGet rd a = docGet pd a) := by
  unfold checkAttr
  rw [clean_no_bracket h]
  simp

theorem checkAttr_enc {pd rd : PDocData} {k0 k1 : String}
    (h0 : cleanName k0 = true) (h1 : cleanName k1 = true)
    (hne0 : k0.isEmpty = false) (hne1 : k1.isEmpty = false) :
    checkAttr pd rd (encName k0 k1) = decide (docGet2 rd k0 k1 = docGet2 pd k0 k1) := by
  unfold checkAttr
  rw [encName_contains_open, encName_contains_close,
      decompose_encName h0 h1 hne0 hne1]
  simp

theorem lookup_isSome_of_mem {α : Type} {l : List (String × α)} {k : String} {v : α}
    (h : (k, v) ∈ l) : (List.lookup k l).isSome := by
  induction l with
  | nil => simp at h
  | cons p rest ih =>
    rcases List.mem_cons.mp h with rfl | h2
    · simp [List.lookup]
    · cases p with
      | mk k2 v2 =>
        by_cases hk : k == k2
        · simp [List.lookup, hk]
        · simp only [List.lookup, hk]
          exact ih h2

theorem mem_getAttrNames {P : PDocData} {a : String} :
    a ∈ getAttrNames P ↔ ∃ kv ∈ P, (match kv.2 with
      | Value.vdict inner => a ∈ inner.map (fun kw => encName kv.1 kw.1)
      | Value.p _ => a = kv.1) := by
  unfold getAttrNames
  rw [List.mem_toFinset, List.mem_flatMap]
  constructor
  · rintro ⟨kv, hkv, ha⟩
    refine ⟨kv, hkv, ?_⟩
    cases h2 : kv.2 with
    | vdict inner => rw [h2] at ha; exact ha
    | p v => rw [h2] at ha; simpa using ha
  · rintro ⟨kv, hkv, ha⟩
    refine ⟨kv, hkv, ?_⟩
    cases h2 : kv.2 with
    | vdict inner => rw [h2] at ha; exact ha
    | p v => rw [h2] at ha; simpa using ha

theorem docGet_isSome_of_plain_mem {P : PDocData} {a : String}
    (ha : a ∈ getAttrNames P) (hbr : a.toList.contains '[' = false) :
    (docGet P a).isSome := by
  obtain ⟨kv, hkv, hshape⟩ := mem_getAttrNames.mp ha
  cases h2 : kv.2 with
  | p v =>
    rw [h2] at hshape
    subst hshape
    obtain ⟨k, v2⟩ := kv
    exact lookup_isSome_of_mem hkv
  | vdict inner =>
    rw [h2] at hshape
    obtain ⟨kw, _, rfl⟩ := List.mem_map.mp hshape
    rw [encName_contains_open] at hbr
    simp at hbr

theorem indexKeyL_cons (a : String) (as : List String) (d : PDocData) :
    indexKeyL (a :: as) d =
      (docGet d a).bind (fun v => (indexKeyL as d).map (fun vs => v :: vs)) := by
  show List.mapM (docGet d) (a :: as) = _
  rw [List.mapM_cons]
  cases docGet d a with
  | none => rfl
  | some v =>
    show (List.mapM (docGet d) as).bind _ = (List.mapM (docGet d) as).map _
    cases List.mapM (docGet d) as <;> rfl

theorem indexKeyL_nil (d : PDocData) : indexKeyL [] d = some [] := rfl

theorem indexKeyL_isSome {pd : PDocData} : ∀ {attrs : List String},
    (∀ a ∈ attrs, (docGet pd a).isSome) → (indexKeyL attrs pd).isSome := by
  intro attrs
  induction attrs with
  | nil => intro _; rw [indexKeyL_nil]; rfl
  | cons a as ih =>
    intro hsome
    rw [indexKeyL_cons]
    obtain ⟨v, hv⟩ := Option.isSome_iff_exists.mp (hsome a (by simp))
    obtain ⟨ks, hks⟩ :=
      Option.isSome_iff_exists.mp (ih (fun x hx => hsome x (by simp [hx])))
    rw [hv, hks]
    rfl

theorem indexKeyL_eq_iff {pd : PDocData} : ∀ {attrs : List String} {rd : PDocData},
    (∀ a ∈ attrs, (docGet pd a).isSome) →
    (indexKeyL attrs rd = indexKeyL attrs pd ↔ ∀ a ∈ attrs, docGet rd a = docGet pd a) := by
  intro attrs
  induction attrs with
  | nil => intro rd _; rw [indexKeyL_nil, indexKeyL_nil]; simp
  | cons a as ih =>
    intro rd hsome
    have hsas : ∀ x ∈ as, (docGet pd x).isSome := fun x hx => hsome x (by simp [hx])
    obtain ⟨v, hv⟩ := Option.isSome_iff_exists.mp (hsome a (by simp))
    obtain ⟨ks, hks⟩ := Option.isSome_iff_exists.mp (indexKeyL_isSome hsas)
    rw [indexKeyL_cons, indexKeyL_cons, hv, hks, List.forall_mem_cons]
    cases hrd : docGet rd a with
    | none =>
      constructor
      · intro h
        simp at h
      · rintro ⟨h1, _⟩
        rw [hv] at h1
        simp at h1
    | some w =>
      constructor
      · intro h
        cases hrs : indexKeyL as rd with
        | none =>
          rw [hrs] at h
          simp at h
        | some ws =>
          rw [hrs] at h
          simp at h
          refine ⟨by rw [hv, h.1], ?_⟩
          exact (ih hsas).mp (by rw [hrs, hks, h.2])
      · rintro ⟨h1, h2⟩
        rw [hv] at h1
        obtain rfl := Option.some_inj.mp h1
        rw [(ih hsas).mpr h2, hks]

theorem checkAll_iff_specMatches {P rd : PDocData} (hclean : cleanDoc P = true) :
    (∀ a ∈ getAttrNames P, checkAttr P rd a = true) ↔ specMatches P rd = true := by
  rw [specMatches, List.all_eq_true]
  constructor
  · intro h kv hkv
    have hckv := List.all_eq_true.mp hclean kv hkv
    cases h2 : kv.2 with
    | p v =>
      rw [h2] at hckv
      simp only [] at hckv
      have ha : kv.1 ∈ getAttrNames P := mem_getAttrNames.mpr ⟨kv, hkv, by rw [h2]⟩
      have hc := h kv.1 ha
      rw [checkAttr_plain hckv] at hc
      simpa using hc
    | vdict inner =>
      rw [h2] at hckv
      simp only [Bool.and_eq_true] at hckv
      obtain ⟨⟨hc1, hne1⟩, hinner⟩ := hckv
      simp only [List.all_eq_true]
      intro kw hkw
      have hkwc := List.all_eq_true.mp hinner kw hkw
      simp only [Bool.and_eq_true] at hkwc
      have ha : encName kv.1 kw.1 ∈ getAttrNames P :=
        mem_getAttrNames.mpr ⟨kv, hkv, by
          rw [h2]
          exact List.mem_map.mpr ⟨kw, hkw, rfl⟩⟩
      have hc := h _ ha
      rw [checkAttr_enc hc1 hkwc.1 (by simpa using hne1) (by simpa using hkwc.2)] at hc
      exact hc
  · intro h a ha
    obtain ⟨kv, hkv, hshape⟩ := mem_getAttrNames.mp ha
    have hckv := List.all_eq_true.mp hclean kv hkv
    have hspec := h kv hkv
    cases h2 : kv.2 with
    | p v =>
      rw [h2] at hshape hckv hspec
      simp only [] at hshape hckv hspec
      subst hshape
      rw [checkAttr_plain hckv]
      exact hspec
    | vdict inner =>
      rw [h2] at hshape hckv hspec
      simp only [Bool.and_eq_true] at hckv
      obtain ⟨⟨hc1, hne1⟩, hinner⟩ := hckv
      obtain ⟨kw, hkw, rfl⟩ := List.mem_map.mp hshape
      have hkwc := List.all_eq_true.mp hinner kw hkw
      simp only [Bool.and_eq_true] at hkwc
      rw [checkAttr_enc hc1 hkwc.1 (by simpa using hne1) (by simpa using hkwc.2)]
      exact List.all_eq_true.mp hspec kw hkw

theorem bool_eq_of_iff {a b : Bool} (h : a = true ↔ b = true) : a = b := by
  cases a <;> cases b <;> simp_all

theorem key_and_residual_iff_specMatches {P rd : PDocData} {I : IndexM}
    (hclean : cleanDoc P = true)
    (hIclean : ∀ a ∈ I.keyAttrs, cleanName a = true)
    (hsub : I.keyAttrs.toFinset ⊆ getAttrNames P) :
    ((indexKey I rd = indexKey I P)
      ∧ residualOk (getAttrNames P \ I.keyAttrs.toFinset) P rd = true)
      ↔ specMatches P rd = true := by
  rw [← checkAll_iff_specMatches hclean]
  have hsome : ∀ a ∈ I.keyAttrs, (docGet P a).isSome := by
    intro a ha
    exact docGet_isSome_of_plain_mem (hsub (List.mem_toFinset.mpr ha))
      (clean_no_bracket (hIclean a ha))
  rw [indexKey, indexKey, indexKeyL_eq_iff hsome, residualOk, decide_eq_true_eq]
  constructor
  · rintro ⟨hkey, hres⟩ a ha
    by_cases hmem : a ∈ I.keyAttrs.toFinset
    · have hal : a ∈ I.keyAttrs := List.mem_toFinset.mp hmem
      rw [checkAttr_plain (hIclean a hal)]
      simp [hkey a hal]
    · exact hres a (Finset.mem_sdiff.mpr ⟨ha, hmem⟩)
  · intro h
    constructor
    · intro a hal
      have := h a (hsub (List.mem_toFinset.mpr hal))
      rw [checkAttr_plain (hIclean a hal)] at this
      simpa using this
    · intro a ha
      exact h a (Finset.mem_sdiff.mp ha).1

theorem residual_full_iff_specMatches {P rd : PDocData} (hclean : cleanDoc P = true) :
    residualOk (getAttrNames P) P rd = true ↔ specMatches P rd = true := by
  rw [residualOk, decide_eq_true_eq]
  exact checkAll_iff_specMatches hclean

theorem tableDocs_select (db : DatabaseM) (tname : String) (P : PDocData) (t' : String) :
    tableDocs (selectIndexAndFilterFunc db tname P).1 t' = tableDocs db t' := by
  unfold tableDocs
  rw [select_tables_eq]

theorem resolveIndex_select (db : DatabaseM) (tname : String) (P : PDocData)
    (t' n : String) :
    resolveIndex (selectIndexAndFilterFunc db tname P).1 t' n = resolveIndex db t' n := by
  unfold resolveIndex registryOf
  rw [select_registry_eq]

theorem gateRun_empty_of_nodup {l : List (Nat × PDocData)}
    (h : (l.map Prod.fst).Nodup) : (gateRun ∅ l).2 = l :=
  gateRun_nodup_fresh l h ∅ (by simp)

theorem filter_fst_nodup {l : List (Nat × PDocData)} (h : (l.map Prod.fst).Nodup)
    (p : Nat × PDocData → Bool) : ((l.filter p).map Prod.fst).Nodup :=
  h.sublist (List.Sublist.map _ (List.filter_sublist l))

theorem resolveIndex_select_fun (db : DatabaseM) (tname : String) (P : PDocData)
    (t' : String) :
    resolveIndex (selectIndexAndFilterFunc db tname P).1 t' = resolveIndex db t' := by
  funext n
  exact resolveIndex_select db tname P t' n

/-- C1 (amended): planner soundness of the filter step, restricted to
predicate shapes the planner cache does not hold yet — a restriction
forced by the cross-table cache leak exhibited in the poisoned-cache
counterexample.  For any table, any predicate document with ordinary
attribute names whose attribute-name set has no cache entry, and any
registered index catalog (which is what determines the index the planner
selects, or none), running the PynndbFilterStep built from the predicate
yields exactly the documents that agree with the predicate on every named
attribute, nested attributes checked as doc[outer][inner].  The
distinct-oid hypothesis is the storage invariant that a table enumerates
each primary key once. -/
theorem pynndb_filter_step_planner_soundness
    (db : DatabaseM) (tname : String) (P : PDocData)
    (hfresh : List.lookup (getAttrNames P) db.attrsToCheckByAttrNames = none)
    (hnodup : ((tableDocs db tname).map Prod.fst).Nodup)
    (hclean : cleanDoc P = true)
    (hreg : ∀ I ∈ registryOf db tname, ∀ a ∈ I.keyAttrs, cleanName a = true) :
    (runFilterPreds db tname ∅ (pynndbFilterStepInit (some P)).docAttrs).2.2
      = (tableDocs db tname).filter (fun od => specMatches P od.2) := by
  by_cases hPe : P.isEmpty = true
  · have hP : P = [] := by
      cases P with
      | nil => rfl
      | cons x xs => simp at hPe
    subst hP
    have hinit : (pynndbFilterStepInit (some ([] : PDocData))).docAttrs = [none] := rfl
    rw [hinit]
    simp only [runFilterPreds]
    rw [gateRun_empty_of_nodup hnodup]
    have hrhs : (tableDocs db tname).filter (fun od => specMatches [] od.2)
        = tableDocs db tname := by
      apply List.filter_eq_self.mpr
      intro od _
      rfl
    rw [hrhs]
    simp
  · have hPe' : P.isEmpty = false := by
      cases h : P.isEmpty with
      | true => exact absurd h hPe
      | false => rfl
    have hinit : (pynndbFilterStepInit (some P)).docAttrs = [some P] := by
      simp [pynndbFilterStepInit, hPe']
    rw [hinit]
    simp only [runFilterPreds, List.append_nil]
    rw [tableDocs_select, resolveIndex_select_fun]
    rcases selectIndex_fresh_cases db tname P hfresh with
      ⟨n, I, hn, hI, hsub, hres, _⟩ | ⟨hn, hres, _⟩
    · rw [hn, hres]
      have hImem : I ∈ registryOf db tname :=
        List.mem_of_find?_eq_some (by simpa [resolveIndex] using hI)
      have hIclean : ∀ a ∈ I.keyAttrs, cleanName a = true := hreg I hImem
      simp only [Option.some_bind]
      rw [hI]
      by_cases hTC : getAttrNames P \ I.keyAttrs.toFinset = ∅
      · rw [if_pos hTC]
        simp only [tableFilter]
        rw [gateRun_empty_of_nodup (filter_fst_nodup hnodup _)]
        apply List.filter_congr
        intro od _
        apply bool_eq_of_iff
        rw [decide_eq_true_eq]
        have hkr := @key_and_residual_iff_specMatches P od.2 I hclean hIclean hsub
        rw [hTC] at hkr
        constructor
        · intro hk
          exact hkr.mp ⟨hk, by simp [residualOk]⟩
        · intro hs
          exact (hkr.mpr hs).1
      · rw [if_neg hTC]
        simp only [tableFilter]
        rw [List.filter_filter]
        rw [gateRun_empty_of_nodup (filter_fst_nodup hnodup _)]
        apply List.filter_congr
        intro od _
        apply bool_eq_of_iff
        rw [Bool.and_eq_true, decide_eq_true_eq]
        exact Iff.trans and_comm
          (@key_and_residual_iff_specMatches P od.2 I hclean hIclean hsub)
    · rw [hn, hres]
      simp only [Option.none_bind]
      by_cases hA : getAttrNames P = ∅
      · rw [if_pos hA]
        simp only [tableFilter]
        rw [gateRun_empty_of_nodup hnodup]
        symm
        apply List.filter_eq_self.mpr
        intro od _
        exact (checkAll_iff_specMatches hclean).mp
          (fun a ha => absurd (hA ▸ ha) (Finset.not_mem_empty a))
      · rw [if_neg hA]
        simp only [tableFilter]
        rw [gateRun_empty_of_nodup (filter_fst_nodup hnodup _)]
        apply List.filter_congr
        intro od _
        apply bool_eq_of_iff
        exact residual_full_iff_specMatches hclean

/-- Witness for planner soundness at a concrete database and predicate. -/
theorem pynndb_filter_step_planner_soundness_witness :
    (List.lookup (getAttrNames predC) dbCex.attrsToCheckByAttrNames = none
      ∧ ((tableDocs dbCex "node").map Prod.fst).Nodup
      ∧ cleanDoc predC = true
      ∧ ∀ I ∈ registryOf dbCex "node", ∀ a ∈ I.keyAttrs, cleanName a = true)
    ∧ (runFilterPreds dbCex "node" ∅ (pynndbFilterStepInit (some predC)).docAttrs).2.2
        = (tableDocs dbCex "node").filter (fun od => specMatches predC od.2) :=
  ⟨⟨by decide, by decide, by decide, by decide⟩,
   pynndb_filter_step_planner_soundness dbCex "node" predC
     (by decide) (by decide) (by decide) (by decide)⟩

theorem runFilterPreds_spec (tname : String) (preds : List (Option PDocData)) :
    ∀ (db : DatabaseM) (seen : Finset Nat),
      (((runFilterPreds db tname seen preds).2.2).map Prod.fst).Nodup
      ∧ (∀ o ∈ ((runFilterPreds db tname seen preds).2.2).map Prod.fst, o ∉ seen) := by
  induction preds with
  | nil => intro db seen; simp [runFilterPreds]
  | cons p rest ih =>
    intro db seen
    cases p with
    | none =>
      simp only [runFilterPreds]
      obtain ⟨g1, g2, g3⟩ := gateRun_spec (tableDocs db tname) seen
      obtain ⟨r1, r2⟩ := ih db (gateRun seen (tableDocs db tname)).1
      constructor
      · rw [List.map_append, List.nodup_append]
        exact ⟨g1, r1, fun o ho hor => r2 o hor ((g3 o).mpr (Or.inr ho))⟩
      · intro o ho
        rw [List.map_append] at ho
        rcases List.mem_append.mp ho with ho | ho
        · exact g2 o ho
        · exact fun hos => r2 o ho ((g3 o).mpr (Or.inl hos))
    | some P =>
      simp only [runFilterPreds]
      obtain ⟨g1, g2, g3⟩ := gateRun_spec
        (tableFilter (tableDocs (selectIndexAndFilterFunc db tname P).1 tname)
          ((selectIndexAndFilterFunc db tname P).2.1.bind
            (resolveIndex (selectIndexAndFilterFunc db tname P).1 tname)) P
          (if (selectIndexAndFilterFunc db tname P).2.2 = ∅ then none
           else some (fun rd => residualOk (selectIndexAndFilterFunc db tname P).2.2 P rd)))
        seen
      obtain ⟨r1, r2⟩ := ih (selectIndexAndFilterFunc db tname P).1 _
      constructor
      · rw [List.map_append, List.nodup_append]
        exact ⟨g1, r1, fun o ho hor => r2 o hor ((g3 o).mpr (Or.inr ho))⟩
      · intro o ho
        rw [List.map_append] at ho
        rcases List.mem_append.mp ho with ho | ho
        · exact g2 o ho
        · exact fun hos => r2 o ho ((g3 o).mpr (Or.inl hos))

/-- C8: the edge-in executor seeds the predicate {end_id: node.oid}
merged with the step's configured attrs, the edge-out executor seeds
{start_id: node.oid} merged with attrs, and the edge-all executor seeds
both (two predicates per node, start first); each edge executor then runs
the filter-executor iteration (runFilterPreds) over its predicate queue
(which also starts with the full-scan sentinel inherited from
PynndbFilterStep.__init__ with attrs None), and a self-loop edge with
start_id == end_id that matches both seeded predicates of the edge-all
executor is emitted exactly once, the Step.process gate skipping every
repeated oid. -/
theorem edge_executor_seeding_and_selfloop_once
    (st : FilterStepState) (oid : Nat)
    (db : DatabaseM) (attrs : PDocData) (n o : Nat) (E : PDocData)
    (hnodup : ((tableDocs db "edge").map Prod.fst).Nodup)
    (hmem : (o, E) ∈ tableDocs db "edge")
    (_hm1 : specMatches (dictMerge [("start_id", Value.p (PVal.num n))] attrs) E = true)
    (_hm2 : specMatches (dictMerge [("end_id", Value.p (PVal.num n))] attrs) E = true) :
    (edgeInInputNode st oid).docAttrs
        = st.docAttrs
          ++ [some (dictMerge [("end_id", Value.p (PVal.num oid))] (st.attrs.getD []))]
    ∧ (edgeOutInputNode st oid).docAttrs
        = st.docAttrs
          ++ [some (dictMerge [("start_id", Value.p (PVal.num oid))] (st.attrs.getD []))]
    ∧ (edgeAllInputNode st oid).docAttrs
        = st.docAttrs
          ++ [some (dictMerge [("start_id", Value.p (PVal.num oid))] (st.attrs.getD [])),
              some (dictMerge [("end_id", Value.p (PVal.num oid))] (st.attrs.getD []))]
    ∧ (((runFilterPreds db "edge" ∅
          (edgeAllInputNode (pynndbEdgeBaseStepInit attrs) n).docAttrs).2.2).map
            Prod.fst).count o = 1 := by
  refine ⟨rfl, rfl, by simp [edgeAllInputNode, edgeOutInputNode, edgeInInputNode, inputAttrs], ?_⟩
  have hdoc : (edgeAllInputNode (pynndbEdgeBaseStepInit attrs) n).docAttrs
      = [none, some (dictMerge [("start_id", Value.p (PVal.num n))] attrs),
         some (dictMerge [("end_id", Value.p (PVal.num n))] attrs)] := by
    simp [edgeAllInputNode, edgeOutInputNode, edgeInInputNode, inputAttrs,
      pynndbEdgeBaseStepInit, pynndbFilterStepInit]
  rw [hdoc]
  have hrun : (runFilterPreds db "edge" ∅
        ([none, some (dictMerge [("start_id", Value.p (PVal.num n))] attrs),
          some (dictMerge [("end_id", Value.p (PVal.num n))] attrs)])).2.2
      = tableDocs db "edge"
        ++ (runFilterPreds db "edge" (gateRun ∅ (tableDocs db "edge")).1
            [some (dictMerge [("start_id", Value.p (PVal.num n))] attrs),
             some (dictMerge [("end_id", Value.p (PVal.num n))] attrs)]).2.2 := by
    simp only [runFilterPreds]
    rw [gateRun_empty_of_nodup hnodup]
  rw [hrun, List.map_append, List.count_append]
  have h1 : ((tableDocs db "edge").map Prod.fst).count o = 1 :=
    List.count_eq_one_of_mem hnodup (List.mem_map.mpr ⟨(o, E), hmem, rfl⟩)
  have h0 : (((runFilterPreds db "edge" (gateRun ∅ (tableDocs db "edge")).1
        [some (dictMerge [("start_id", Value.p (PVal.num n))] attrs),
         some (dictMerge [("end_id", Value.p (PVal.num n))] attrs)]).2.2).map
          Prod.fst).count o = 0 := by
    rw [List.count_eq_zero]
    intro hm
    obtain ⟨_, hrest⟩ := runFilterPreds_spec "edge"
      [some (dictMerge [("start_id", Value.p (PVal.num n))] attrs),
       some (dictMerge [("end_id", Value.p (PVal.num n))] attrs)]
      db (gateRun ∅ (tableDocs db "edge")).1
    refine hrest o hm ?_
    obtain ⟨_, _, g3⟩ := gateRun_spec (tableDocs db "edge") ∅
    refine (g3 o).mpr (Or.inr ?_)
    rw [gateRun_empty_of_nodup hnodup]
    exact List.mem_map.mpr ⟨(o, E), hmem, rfl⟩
  rw [h1, h0]

/-- Concrete edge-table database with a single self-loop edge. -/
def dbEdgeCex : DatabaseM :=
  { tables := [("edge", [(5, [("start_id", Value.p (PVal.num 7)),
                              ("end_id", Value.p (PVal.num 7)),
                              ("w", Value.p (PVal.num 1))])])],
    indexRegistry := [("edge", [])],
    indexNamesByAttrNames := [],
    attrsToCheckByAttrNames := [] }

/-- The self-loop edge document of dbEdgeCex. -/
def selfLoopEdge : PDocData :=
  [("start_id", Value.p (PVal.num 7)), ("end_id", Value.p (PVal.num 7)),
   ("w", Value.p (PVal.num 1))]

/-- Witness for the edge-executor claim at a concrete self-loop edge. -/
theorem edge_executor_seeding_and_selfloop_once_witness :
    (((tableDocs dbEdgeCex "edge").map Prod.fst).Nodup
      ∧ (5, selfLoopEdge) ∈ tableDocs dbEdgeCex "edge"
      ∧ specMatches (dictMerge [("start_id", Value.p (PVal.num 7))]
          [("w", Value.p (PVal.num 1))]) selfLoopEdge = true
      ∧ specMatches (dictMerge [("end_id", Value.p (PVal.num 7))]
          [("w", Value.p (PVal.num 1))]) selfLoopEdge = true)
    ∧ ((edgeInInputNode (pynndbEdgeBaseStepInit [("w", Value.p (PVal.num 1))]) 7).docAttrs
        = (pynndbEdgeBaseStepInit [("w", Value.p (PVal.num 1))]).docAttrs
          ++ [some (dictMerge [("end_id", Value.p (PVal.num 7))]
              (((pynndbEdgeBaseStepInit [("w", Value.p (PVal.num 1))]).attrs).getD []))]
      ∧ (edgeOutInputNode (pynndbEdgeBaseStepInit [("w", Value.p (PVal.num 1))]) 7).docAttrs
        = (pynndbEdgeBaseStepInit [("w", Value.p (PVal.num 1))]).docAttrs
          ++ [some (dictMerge [("start_id", Value.p (PVal.num 7))]
              (((pynndbEdgeBaseStepInit [("w", Value.p (PVal.num 1))]).attrs).getD []))]
      ∧ (edgeAllInputNode (pynndbEdgeBaseStepInit [("w", Value.p (PVal.num 1))]) 7).docAttrs
        = (pynndbEdgeBaseStepInit [("w", Value.p (PVal.num 1))]).docAttrs
          ++ [some (dictMerge [("start_id", Value.p (PVal.num 7))]
              (((pynndbEdgeBaseStepInit [("w", Value.p (PVal.num 1))]).attrs).getD [])),
              some (dictMerge [("end_id", Value.p (PVal.num 7))]
              (((pynndbEdgeBaseStepInit [("w", Value.p (PVal.num 1))]).attrs).getD []))]
      ∧ (((runFilterPreds dbEdgeCex "edge" ∅
            (edgeAllInputNode (pynndbEdgeBaseStepInit [("w", Value.p (PVal.num 1))]) 7).docAttrs).2.2).map
              Prod.fst).count 5 = 1) :=
  ⟨⟨by decide, by decide, by decide, by decide⟩,
   edge_executor_seeding_and_selfloop_once
     (pynndbEdgeBaseStepInit [("w", Value.p (PVal.num 1))]) 7 dbEdgeCex
     [("w", Value.p (PVal.num 1))] 7 5 selfLoopEdge
     (by decide) (by decide) (by decide) (by decide)⟩

theorem compileWindow_true_length (edgeCls : String) (w : List BStep) :
    (compileWindow edgeCls w).1 = true →
    (compileWindow edgeCls w).2.length = w.length := by
  unfold compileWindow
  split
  all_goals try (intro _; rfl)
  split
  · intro h
    simp at h
  · intro _
    rfl

theorem compileWindow_false_shape (edgeCls : String) (w : List BStep) :
    (compileWindow edgeCls w).1 = false →
    w.length = 2 ∧ (compileWindow edgeCls w).2.length = 1 := by
  unfold compileWindow
  split
  all_goals try (intro h; simp at h)
  split
  · intro _
    exact ⟨rfl, rfl⟩
  · intro h
    simp at h

theorem sweepFuel_terminates (edgeCls : String) (cnt : Nat) :
    ∀ (fuel : Nat) (steps : List BStep) (i : Nat),
      2 * steps.length - i < fuel →
      ∃ out, sweepFuel edgeCls fuel cnt steps i = some out := by
  intro fuel
  induction fuel with
  | zero =>
    intro steps i h
    omega
  | succ f ih =>
    intro steps i h
    by_cases hi : i < steps.length
    · simp only [sweepFuel, if_pos hi]
      have hwlen : ((steps.drop i).take cnt).length = min cnt (steps.length - i) := by
        simp [List.length_take, List.length_drop]
      have htake : (steps.take i).length = i := by
        simp [List.length_take]
        omega
      cases hgo : (compileWindow edgeCls ((steps.drop i).take cnt)).1 with
      | true =>
        rw [if_pos rfl]
        have hr := compileWindow_true_length edgeCls _ hgo
        rw [hwlen] at hr
        have hlen' : (steps.take i
            ++ (compileWindow edgeCls ((steps.drop i).take cnt)).2
            ++ steps.drop (i + cnt)).length
            = i + min cnt (steps.length - i) + (steps.length - (i + cnt)) := by
          simp [List.length_append, htake, hr, List.length_drop]
          omega
        apply ih
        rw [hlen']
        rcases Nat.le_total cnt (steps.length - i) with hle | hle
        · rw [Nat.min_eq_left hle]
          omega
        · rw [Nat.min_eq_right hle]
          omega
      | false =>
        rw [if_neg (by simp)]
        obtain ⟨hw2, hr1⟩ := compileWindow_false_shape edgeCls _ hgo
        rw [hwlen] at hw2
        have hc2 : 2 ≤ cnt := by
          have := Nat.min_le_left cnt (steps.length - i)
          omega
        have hli : 2 ≤ steps.length - i := by
          have := Nat.min_le_right cnt (steps.length - i)
          omega
        have hlen' : (steps.take i
            ++ (compileWindow edgeCls ((steps.drop i).take cnt)).2
            ++ steps.drop (i + cnt)).length
            = i + 1 + (steps.length - (i + cnt)) := by
          simp [List.length_append, htake, hr1, List.length_drop]
          omega
        apply ih
        rw [hlen']
        omega
    · simp only [sweepFuel, if_neg hi]
      exact ⟨steps, rfl⟩

/-- C5: StepBuilder._compile_all terminates on every finite declared step
list.  Each windowed rewrite either advances the position with the list
length unchanged (every advancing rule returns a window of the same
length) or keeps the position and strictly shrinks the list (the only
non-advancing rule fuses a two-step window into one step), so a fuel of
twice the list length plus one suffices for each pass, and the sweep for
window sizes 1 and 2 produces a flat list of steps. -/
theorem compile_all_terminates (edgeCls : String) (steps : List BStep) :
    ∃ out, compileAll edgeCls steps = some out := by
  obtain ⟨s1, hs1⟩ := sweepFuel_terminates edgeCls 1 (2 * steps.length + 1) steps 0
    (by omega)
  obtain ⟨s2, hs2⟩ := sweepFuel_terminates edgeCls 2 (2 * s1.length + 1) s1 0
    (by omega)
  refine ⟨s2, ?_⟩
  rw [compileAll, hs1]
  show sweepFuel edgeCls (2 * s1.length + 1) 2 s1 0 = some s2
  exact hs2

/-- First-defined choice on options (Python dict precedence helper). -/
def optOr (x y : Option Value) : Option Value :=
  match x with
  | some v => some v
  | none => y

theorem lookup_map_override (b : PDocData) (k : String) : ∀ a : PDocData,
    List.lookup k (a.map fun kv => (kv.1, (List.lookup kv.1 b).getD kv.2))
      = (List.lookup k a).map (fun v => (List.lookup k b).getD v) := by
  intro a
  induction a with
  | nil => rfl
  | cons kv rest ih =>
    obtain ⟨k0, v0⟩ := kv
    by_cases hk : k == k0
    · have hkk : k = k0 := eq_of_beq hk
      simp [List.lookup, hk, hkk]
    · simp only [List.map_cons, List.lookup, hk]
      exact ih

theorem lookup_filter_none (a : PDocData) (k : String) : ∀ b : PDocData,
    List.lookup k (b.filter fun kv => (List.lookup kv.1 a).isNone)
      = (if (List.lookup k a).isNone then List.lookup k b else none) := by
  intro b
  induction b with
  | nil => simp
  | cons kv rest ih =>
    obtain ⟨k1, w⟩ := kv
    by_cases hpred : (List.lookup k1 a).isNone
    · rw [List.filter_cons_of_pos (by simpa using hpred)]
      by_cases hk : k == k1
      · have hkk : k = k1 := eq_of_beq hk
        subst hkk
        simp [List.lookup, hpred]
      · simp only [List.lookup, hk]
        exact ih
    · rw [List.filter_cons_of_neg (by simpa using hpred)]
      by_cases hk : k == k1
      · have hkk : k = k1 := eq_of_beq hk
        subst hkk
        rw [ih]
        simp [hpred]
      · rw [ih]
        simp only [List.lookup, hk]
  
theorem lookup_append_optOr (k : String) : ∀ l1 l2 : PDocData,
    List.lookup k (l1 ++ l2) = optOr (List.lookup k l1) (List.lookup k l2) := by
  intro l1 l2
  induction l1 with
  | nil => simp [optOr]
  | cons kv rest ih =>
    obtain ⟨k0, v0⟩ := kv
    by_cases hk : k == k0
    · simp [List.lookup, hk, optOr]
    · simp only [List.cons_append, List.lookup, hk]
      exact ih

theorem lookup_dictMerge (a b : PDocData) (k : String) :
    List.lookup k (dictMerge a b) = optOr (List.lookup k b) (List.lookup k a) := by
  unfold dictMerge
  rw [lookup_append_optOr, lookup_map_override, lookup_filter_none a k b]
  cases ha : List.lookup k a with
  | none =>
    simp only [Option.map_none, Option.isNone_none, if_pos rfl, optOr]
    cases List.lookup k b <;> rfl
  | some v =>
    simp only [Option.map_some, Option.isNone_some]
    cases List.lookup k b <;> simp [optOr]

theorem sweep1_fixed (edgeCls : String) : ∀ (suf pre : List BStep) (fuel : Nat),
    (∀ s ∈ suf, compileWindow edgeCls [s] = (true, [s])) →
    suf.length < fuel →
    sweepFuel edgeCls fuel 1 (pre ++ suf) pre.length = some (pre ++ suf) := by
  intro suf
  induction suf with
  | nil =>
    intro pre fuel _ hfuel
    obtain ⟨f, rfl⟩ : ∃ f, fuel = f + 1 := ⟨fuel - 1, by omega⟩
    simp [sweepFuel]
  | cons s rest ih =>
    intro pre fuel hfix hfuel
    obtain ⟨f, rfl⟩ : ∃ f, fuel = f + 1 := ⟨fuel - 1, by omega⟩
    have hi : pre.length < (pre ++ s :: rest).length := by
      simp
    simp only [sweepFuel, if_pos hi]
    have hdrop : (pre ++ s :: rest).drop pre.length = s :: rest := List.drop_left pre _
    have htake : (pre ++ s :: rest).take pre.length = pre := List.take_left pre _
    rw [hdrop]
    have hw : (s :: rest).take 1 = [s] := rfl
    rw [hw, hfix s (by simp)]
    simp only
    rw [if_pos trivial]
    rw [htake]
    have hdrop1 : (pre ++ s :: rest).drop (pre.length + 1) = rest := by
      have : pre ++ s :: rest = (pre ++ [s]) ++ rest := by simp
      rw [this]
      have hlen : (pre ++ [s]).length = pre.length + 1 := by simp
      rw [← hlen]
      exact List.drop_left _ _
    rw [hdrop1]
    have hlen : (pre ++ [s]).length = pre.length + 1 := by simp
    have := ih (pre ++ [s]) f (fun x hx => hfix x (by simp [hx])) (by simpa using hfuel)
    rw [hlen] at this
    simpa using this

theorem sweep2_fuse (edgeCls T : String) : ∀ (Bs : List PDocData) (A : PDocData) (fuel : Nat),
    2 * Bs.length + 2 ≤ fuel →
    sweepFuel edgeCls fuel 2 (BStep.pFilterS T A :: Bs.map BStep.hasS) 0
      = some [BStep.pFilterS T (Bs.foldl dictMerge A)] := by
  intro Bs
  induction Bs with
  | nil =>
    intro A fuel hfuel
    obtain ⟨f, rfl⟩ : ∃ f, fuel = f + 1 := ⟨fuel - 1, by omega⟩
    obtain ⟨f2, rfl⟩ : ∃ f2, f = f2 + 1 := ⟨f - 1, by omega⟩
    simp [sweepFuel, compileWindow]
  | cons B rest ih =>
    intro A fuel hfuel
    obtain ⟨f, rfl⟩ : ∃ f, fuel = f + 1 := ⟨fuel - 1, by omega⟩
    have hi : 0 < (BStep.pFilterS T A :: (B :: rest).map BStep.hasS).length := by
      simp
    simp only [sweepFuel, if_pos hi]
    have hw : ((BStep.pFilterS T A :: (B :: rest).map BStep.hasS).drop 0).take 2
        = [BStep.pFilterS T A, BStep.hasS B] := rfl
    rw [hw]
    have hcw : compileWindow edgeCls [BStep.pFilterS T A, BStep.hasS B]
        = (false, [BStep.pFilterS T (dictMerge A B)]) := rfl
    rw [hcw]
    simp only
    rw [if_neg (by simp)]
    have hsteps : (BStep.pFilterS T A :: (B :: rest).map BStep.hasS).take 0
        ++ [BStep.pFilterS T (dictMerge A B)]
        ++ (BStep.pFilterS T A :: (B :: rest).map BStep.hasS).drop (0 + 2)
        = BStep.pFilterS T (dictMerge A B) :: rest.map BStep.hasS := rfl
    rw [hsteps]
    have := ih (dictMerge A B) f (by simp at hfuel ⊢; omega)
    simpa using this

theorem foldl_dictMerge_lookup (k : String) : ∀ (Bs : List PDocData) (A : PDocData),
    List.lookup k (Bs.foldl dictMerge A)
      = Bs.foldl (fun acc b => optOr (List.lookup k b) acc) (List.lookup k A) := by
  intro Bs
  induction Bs with
  | nil => intro A; rfl
  | cons B rest ih =>
    intro A
    simp only [List.foldl_cons]
    rw [ih (dictMerge A B), lookup_dictMerge]

/-- C4: compiling source(T).has(B1)...has(Bn) produces exactly one
compiled step, a filter executor over T whose attrs are the left-to-right
dict merge of the has bindings: the source step lowers to a filter
executor with empty attrs in the size-1 pass, and the size-2 pass fuses
each following has step into it with {**older, **newer} so a key bound in
a later has step overrides the value bound earlier, as the lookup
characterization states. -/
theorem compile_source_has_fuses (edgeCls T : String) (Bs : List PDocData) :
    compileAll edgeCls (BStep.sourceS T :: Bs.map BStep.hasS)
        = some [BStep.pFilterS T (Bs.foldl dictMerge [])]
    ∧ ∀ k, List.lookup k (Bs.foldl dictMerge [])
        = Bs.foldl (fun acc b => optOr (List.lookup k b) acc) none := by
  constructor
  · have hpass1 : sweepFuel edgeCls (2 * (BStep.sourceS T :: Bs.map BStep.hasS).length + 1) 1
        (BStep.sourceS T :: Bs.map BStep.hasS) 0
        = some (BStep.pFilterS T [] :: Bs.map BStep.hasS) := by
      obtain ⟨f, hf⟩ : ∃ f, 2 * (BStep.sourceS T :: Bs.map BStep.hasS).length + 1 = f + 1 :=
        ⟨_, rfl⟩
      rw [hf]
      have hi : 0 < (BStep.sourceS T :: Bs.map BStep.hasS).length := by simp
      simp only [sweepFuel, if_pos hi]
      have hw : ((BStep.sourceS T :: Bs.map BStep.hasS).drop 0).take 1 = [BStep.sourceS T] := rfl
      rw [hw]
      have hcw : compileWindow edgeCls [BStep.sourceS T] = (true, [BStep.pFilterS T []]) := rfl
      rw [hcw]
      simp only
      rw [if_pos trivial]
      have hsteps : (BStep.sourceS T :: Bs.map BStep.hasS).take 0
          ++ [BStep.pFilterS T []]
          ++ (BStep.sourceS T :: Bs.map BStep.hasS).drop (0 + 1)
          = [BStep.pFilterS T []] ++ Bs.map BStep.hasS := rfl
      rw [hsteps]
      have hfix : ∀ s ∈ Bs.map BStep.hasS, compileWindow edgeCls [s] = (true, [s]) := by
        intro s hs
        obtain ⟨b, _, rfl⟩ := List.mem_map.mp hs
        rfl
      have := sweep1_fixed edgeCls (Bs.map BStep.hasS) [BStep.pFilterS T []] f hfix
        (by simp at hf ⊢; omega)
      simpa using this
    rw [compileAll, hpass1]
    show sweepFuel edgeCls (2 * (BStep.pFilterS T [] :: Bs.map BStep.hasS).length + 1) 2
        (BStep.pFilterS T [] :: Bs.map BStep.hasS) 0 = _
    exact sweep2_fuse edgeCls T Bs [] _ (by simp; omega)
  · intro k
    rw [foldl_dictMerge_lookup]
    rfl

theorem filterMap_unlift_lift (l : List (String × PVal)) :
    (liftDoc l).filterMap unliftEntry = l := by
  induction l with
  | nil => rfl
  | cons kv rest ih =>
    obtain ⟨k, v⟩ := kv
    simp only [liftDoc, List.map_cons, List.filterMap_cons]
    simp only [unliftEntry]
    rw [← liftDoc]
    rw [ih]

theorem lookup_eq_none_of_not_mem_keys {α : Type} {l : List (String × α)} {k : String}
    (h : k ∉ l.map Prod.fst) : List.lookup k l = none := by
  induction l with
  | nil => rfl
  | cons kv rest ih =>
    obtain ⟨k0, v0⟩ := kv
    simp only [List.map_cons, List.mem_cons] at h
    push_neg at h
    have hk : (k == k0) = false := by
      simp
      exact h.1
    simp only [List.lookup, hk]
    exact ih h.2

theorem nodeToDoc_data (e : NodeRec) (hwf : "oid" ∉ e.attrs.map Prod.fst) :
    (nodeToDoc e).data = liftDoc e.attrs := by
  show toDocData (liftDoc (("oid", oidPVal e.oid) :: e.attrs)) skipOnToDoc = _
  simp only [liftDoc, List.map_cons, toDocData, skipOnToDoc, List.filter_cons]
  simp only [beq_self_eq_true, Bool.not_true, Bool.false_and, Bool.false_eq_true, if_false]
  rw [← liftDoc]
  apply List.filter_eq_self.mpr
  intro kv hkv
  obtain ⟨kw, hkw, rfl⟩ := List.mem_map.mp hkv
  have : kw.1 ≠ "oid" := by
    intro hk
    exact hwf (List.mem_map.mpr ⟨kw, hkw, hk⟩)
  simp [this]

theorem nodeFromDict_lift (attrs : List (String × PVal))
    (hwf : "oid" ∉ attrs.map Prod.fst) :
    nodeFromDict (liftDoc attrs) = { oid := none, attrs := attrs } := by
  unfold nodeFromDict
  have hlook : List.lookup "oid" (liftDoc attrs) = none := by
    apply lookup_eq_none_of_not_mem_keys
    intro h
    apply hwf
    simp only [liftDoc, List.map_map] at h
    simpa using h
  rw [hlook]
  have hfil : (liftDoc attrs).filter (fun kv => !(kv.1 == "oid")) = liftDoc attrs := by
    apply List.filter_eq_self.mpr
    intro kv hkv
    obtain ⟨kw, hkw, rfl⟩ := List.mem_map.mp hkv
    have : kw.1 ≠ "oid" := fun hk => hwf (List.mem_map.mpr ⟨kw, hkw, hk⟩)
    simp [this]
  rw [hfil]
  rw [filterMap_unlift_lift attrs]
  rfl

theorem le_foldr_max (l : List Nat) : ∀ k ∈ l, k ≤ l.foldr max 0 := by
  induction l with
  | nil => intro k hk; simp at hk
  | cons x rest ih =>
    intro k hk
    rcases List.mem_cons.mp hk with rfl | hk
    · simp only [List.foldr_cons]
      exact Nat.le_max_left _ _
    · have := ih k hk
      simp only [List.foldr_cons]
      omega

theorem freshOid_not_mem (store : List (Nat × PDocData)) :
    freshOid store ∉ store.map Prod.fst := by
  intro h
  have := le_foldr_max (store.map Prod.fst) _ h
  unfold freshOid at this
  omega

theorem lookup_append_fresh (store : List (Nat × PDocData)) (f : Nat) (d : PDocData)
    (hf : f ∉ store.map Prod.fst) :
    List.lookup f (store ++ [(f, d)]) = some d := by
  induction store with
  | nil => simp [List.lookup]
  | cons kv rest ih =>
    obtain ⟨k0, v0⟩ := kv
    simp only [List.map_cons, List.mem_cons] at hf
    push_neg at hf
    have hk : (f == k0) = false := by
      simp
      exact hf.1
    simp only [List.cons_append, List.lookup, hk]
    exact ih hf.2

/-- C7: the round trip entity to document to entity preserves every
user-visible attribute, empty-string values included (the source applies
no sentinel mapping: to_doc and from_doc copy attribute values
unchanged), and equivalently a save of a fresh entity followed by a get
of the assigned oid returns the same entity bound to that oid. -/
theorem entity_round_trip (store : List (Nat × PDocData)) (e : NodeRec)
    (hoid : e.oid = none) (hwf : "oid" ∉ e.attrs.map Prod.fst) :
    nodeFromDoc (some (nodeToDoc e)) = some e
    ∧ (dbSaveNode store e).2 = some { e with oid := some (freshOid store) }
    ∧ (dbGetNode (dbSaveNode store e).1 (some (freshOid store))).1
        = some { e with oid := some (freshOid store) } := by
  have hdata := nodeToDoc_data e hwf
  have hdict := nodeFromDict_lift e.attrs hwf
  refine ⟨?_, ?_, ?_⟩
  · simp only [nodeFromDoc, Option.map_some']
    rw [hdata, hdict]
    rfl
  · simp only [dbSaveNode, hoid, nodeFromDoc, Option.map_some']
    rw [hdata, hdict]
  · simp only [dbSaveNode, hoid, dbGetNode]
    rw [lookup_append_fresh store (freshOid store) (nodeToDoc e).data (freshOid_not_mem store)]
    simp only [Option.map_some', nodeFromDoc]
    rw [hdata, hdict]

/-- Concrete node carrying an empty-string attribute value. -/
def nodeEx : NodeRec := { oid := none, attrs := [("c", PVal.str "")] }

/-- Concrete predicate document of the same shape as predC but with a
value matching nothing in the edge table of dbCex. -/
def predC2 : PDocData := [("c", Value.p (PVal.str "b"))]

/-- C1 counterexample: after an earlier call on the node table cached the
index by_c for the attribute-name shape set-of-c, the filter step run on
the edge table with a predicate of the same shape answers from the
poisoned cache (some by_c, empty residual), the cached name resolves to
no index of the edge table, and the step emits documents that do not
match the predicate — its output differs from the matching set, so
planner soundness does not hold in every reachable state. -/
theorem planner_soundness_poisoned_cache_cex :
    (runFilterPreds (selectIndexAndFilterFunc dbCex "node" predC).1 "edge" ∅
        (pynndbFilterStepInit (some predC2)).docAttrs).2.2
      ≠ (tableDocs (selectIndexAndFilterFunc dbCex "node" predC).1 "edge").filter
          (fun od => specMatches predC2 od.2) := by
  decide

/-- Decoder of a serialized oid primitive back to an optional oid. -/
def decodeOidP : Option PVal → Option Nat
  | some (PVal.num n) => some n.toNat
  | _ => none

/-- mashumaro from_dict of a Node applied to a nested (primitive-valued)
dictionary, as Edge.from_doc does for the popped start / end entries. -/
def nodeFromPDict (d : List (String × PVal)) : NodeRec :=
  { oid := decodeOidP (List.lookup "oid" d),
    attrs := d.filter (fun kv => !(kv.1 == "oid")) }

/-- Node.from_dict applied to a stored field value: a nested dictionary
parses to a node; from_dict of anything else — in particular of a stored
None endpoint — raises in the source, modelled as none. -/
def nodeFromValue : Value → Option NodeRec
  | Value.vdict d => some (nodeFromPDict d)
  | _ => none

/-- Parsing of an Optional[Node] dataclass field inside the superclass
from_dict: None is the absent endpoint, a nested dictionary parses to a
node, anything else fails. -/
def optNodeFromValue : Value → Option (Option NodeRec)
  | Value.p PVal.pnone => some none
  | Value.vdict d => some (some (nodeFromPDict d))
  | _ => none

/-- mashumaro from_dict for the Edge dataclass (the super().from_doc part
of Edge.from_doc): every dataclass field is decoded from the document,
the oid defaulting to None when the key is absent. -/
def edgeFromDict (d : PDocData) : Option EdgeRec :=
  match optNodeFromValue ((List.lookup "start" d).getD (Value.p PVal.pnone)),
        optNodeFromValue ((List.lookup "end" d).getD (Value.p PVal.pnone)),
        optNodeFromValue ((List.lookup "has" d).getD (Value.p PVal.pnone)) with
  | some st, some en, some ha =>
      some { oid := decodeOid (List.lookup "oid" d),
             start := st, endN := en,
             start_id := decodeOid (List.lookup "start_id" d),
             end_id := decodeOid (List.lookup "end_id" d),
             has := ha }
  | _, _, _ => none

/-- Edge.from_doc: a None doc maps to None; otherwise pop the serialized
start and end entries and parse each with Node.from_dict — which fails on
a stored None endpoint — build the base entity with the superclass
from_doc (from_dict of the document plus the oid taken from the Doc key)
and reassign the parsed endpoints. -/
def edgeFromDoc (doc? : Option PDoc) : Option EdgeRec :=
  match doc? with
  | none => none
  | some doc =>
    match nodeFromValue ((List.lookup "start" doc.data).getD (Value.p PVal.pnone)),
          nodeFromValue ((List.lookup "end" doc.data).getD (Value.p PVal.pnone)),
          edgeFromDict doc.data with
    | some st, some en, some base =>
        some { base with oid := doc.key, start := some st, endN := some en }
    | _, _, _ => none

/-- Database.save for an edge: the same append / overwrite-in-place logic
as for a node, with the edge serialization and deserialization. -/
def dbSaveEdge (store : List (Nat × PDocData)) (e : EdgeRec) :
    List (Nat × PDocData) × Option EdgeRec :=
  match e.oid with
  | none =>
      let oid := freshOid store
      let doc := edgeToDoc e
      (store ++ [(oid, doc.data)],
       edgeFromDoc (some { data := doc.data, key := some oid }))
  | some o =>
      (store.map (fun p => if p.1 = o then (o, (edgeToDoc e).data) else p), none)

/-- Database.get for an edge, with the list of storage lookups performed. -/
def dbGetEdge (store : List (Nat × PDocData)) (oid? : Option Nat) :
    Option EdgeRec × List Nat :=
  match oid? with
  | none => (none, [])
  | some o =>
      (edgeFromDoc ((List.lookup o store).map (fun d => { data := d, key := some o })),
       [o])

/-- Edge stored the ordinary way: endpoints referenced only through
start_id / end_id, the hydrated fields unset. -/
def edgeIdOnly : EdgeRec :=
  { oid := none, start := none, endN := none,
    start_id := some 2, end_id := some 3, has := none }

theorem decodeOidP_oidPVal (x : Option Nat) :
    decodeOidP (some (oidPVal x)) = x := by
  cases x with
  | none => rfl
  | some o => simp [oidPVal, decodeOidP]

theorem decodeOid_oidPVal (x : Option Nat) :
    decodeOid (some (Value.p (oidPVal x))) = x := by
  cases x with
  | none => rfl
  | some o => simp [oidPVal, decodeOid]

theorem nodeFromPDict_nodeToDict (s : NodeRec)
    (hs : "oid" ∉ s.attrs.map Prod.fst) : nodeFromPDict (nodeToDict s) = s := by
  unfold nodeFromPDict nodeToDict
  have h1 : List.lookup "oid" (("oid", oidPVal s.oid) :: s.attrs)
      = some (oidPVal s.oid) := by
    simp [List.lookup]
  have h2 : (("oid", oidPVal s.oid) :: s.attrs).filter (fun kv => !(kv.1 == "oid"))
      = s.attrs := by
    rw [List.filter_cons_of_neg (by simp)]
    apply List.filter_eq_self.mpr
    intro kv hkv
    have : kv.1 ≠ "oid" := fun hk => hs (List.mem_map.mpr ⟨kv, hkv, hk⟩)
    simp [this]
  rw [h1, h2, decodeOidP_oidPVal]

theorem edgeToDoc_data (g : EdgeRec) :
    (edgeToDoc g).data
      = [("start", nodeOptValue g.start), ("end", nodeOptValue g.endN),
         ("start_id", Value.p (oidPVal g.start_id)),
         ("end_id", Value.p (oidPVal g.end_id)),
         ("has", nodeOptValue g.has)] := rfl

theorem edgeFromDoc_edgeToDoc_data (g : EdgeRec) (s t : NodeRec)
    (hgs : g.start = some s) (hgt : g.endN = some t) (hgh : g.has = none)
    (hs : "oid" ∉ s.attrs.map Prod.fst) (ht : "oid" ∉ t.attrs.map Prod.fst)
    (key : Option Nat) :
    edgeFromDoc (some { data := (edgeToDoc g).data, key := key })
      = some { g with oid := key } := by
  obtain ⟨go, gs0, ge0, gsi, gei, gh0⟩ := g
  dsimp only at hgs hgt hgh
  subst hgs
  subst hgt
  subst hgh
  simp only [edgeFromDoc, edgeToDoc_data, nodeOptValue, List.lookup, edgeFromDict,
    optNodeFromValue, nodeFromValue, decodeOid]
  simp [decodeOidP_oidPVal, oidPVal, decodeOid,
    nodeFromPDict_nodeToDict s hs, nodeFromPDict_nodeToDict t ht]
  constructor
  · cases gsi <;> simp
  · cases gei <;> simp

/-- C7 counterexample: an edge stored the ordinary way — hydrated
endpoints unset, endpoints referenced only through start_id / end_id —
does not survive the round trip: Edge.from_doc calls Node.from_dict on
the stored None endpoint and fails (both directly on to_doc's output and
through get after save) instead of returning an entity equal to the
original, so the round trip does not hold for every entity. -/
theorem edge_round_trip_unhydrated_endpoint_cex :
    edgeFromDoc (some (edgeToDoc edgeIdOnly)) = none
    ∧ (dbGetEdge (dbSaveEdge [] edgeIdOnly).1 (some (freshOid []))).1 = none := by
  constructor
  · rfl
  · rfl

/-- C7 (amended): the round trip entity to document to entity preserves
every user-visible attribute, empty-string values included and exactly
(the source applies no sentinel mapping), for every node and for every
edge whose start and end endpoints are hydrated (and whose has template
is unset); and equivalently a save of a fresh such entity followed by a
get of the assigned oid returns the same entity bound to that oid.  An
edge whose hydrated endpoints are unset is excluded: its stored None
endpoint makes Edge.from_doc fail, as the counterexample shows. -/
theorem entity_round_trip_nodes_and_hydrated_edges
    (store estore : List (Nat × PDocData)) (e : NodeRec) (g : EdgeRec) (s t : NodeRec)
    (hoid : e.oid = none) (hwf : "oid" ∉ e.attrs.map Prod.fst)
    (hgoid : g.oid = none)
    (hgs : g.start = some s) (hgt : g.endN = some t) (hgh : g.has = none)
    (hs : "oid" ∉ s.attrs.map Prod.fst) (ht : "oid" ∉ t.attrs.map Prod.fst) :
    (nodeFromDoc (some (nodeToDoc e)) = some e
      ∧ (dbSaveNode store e).2 = some { e with oid := some (freshOid store) }
      ∧ (dbGetNode (dbSaveNode store e).1 (some (freshOid store))).1
          = some { e with oid := some (freshOid store) })
    ∧ (edgeFromDoc (some (edgeToDoc g)) = some g
      ∧ (dbSaveEdge estore g).2 = some { g with oid := some (freshOid estore) }
      ∧ (dbGetEdge (dbSaveEdge estore g).1 (some (freshOid estore))).1
          = some { g with oid := some (freshOid estore) }) := by
  refine ⟨entity_round_trip store e hoid hwf, ?_, ?_, ?_⟩
  · have h1 := edgeFromDoc_edgeToDoc_data g s t hgs hgt hgh hs ht g.oid
    have h2 : (some (edgeToDoc g) : Option PDoc)
        = some { data := (edgeToDoc g).data, key := g.oid } := rfl
    have h3 : ({ g with oid := g.oid } : EdgeRec) = g := rfl
    rw [h2, h1, h3]
  · simp only [dbSaveEdge, hgoid]
    exact edgeFromDoc_edgeToDoc_data g s t hgs hgt hgh hs ht (some (freshOid estore))
  · simp only [dbSaveEdge, hgoid, dbGetEdge]
    rw [lookup_append_fresh estore (freshOid estore) (edgeToDoc g).data
        (freshOid_not_mem estore), Option.map_some']
    exact edgeFromDoc_edgeToDoc_data g s t hgs hgt hgh hs ht (some (freshOid estore))

/-- Hydrated start endpoint for the round-trip witness. -/
def startNodeEx : NodeRec := { oid := some 2, attrs := [("c", PVal.str "a")] }

/-- Hydrated end endpoint carrying an empty-string attribute value. -/
def endNodeEx : NodeRec := { oid := some 3, attrs := [("c", PVal.str "")] }

/-- Concrete hydrated edge for the round-trip witness. -/
def hydratedEdge : EdgeRec :=
  { oid := none, start := some startNodeEx, endN := some endNodeEx,
    start_id := some 2, end_id := some 3, has := none }

/-- Witness for the amended round-trip claim at a concrete node with an
empty-string attribute value and a concrete hydrated edge. -/
theorem entity_round_trip_nodes_and_hydrated_edges_witness :
    (nodeEx.oid = none ∧ "oid" ∉ nodeEx.attrs.map Prod.fst
      ∧ hydratedEdge.oid = none
      ∧ hydratedEdge.start = some startNodeEx
      ∧ hydratedEdge.endN = some endNodeEx
      ∧ hydratedEdge.has = none
      ∧ "oid" ∉ startNodeEx.attrs.map Prod.fst
      ∧ "oid" ∉ endNodeEx.attrs.map Prod.fst)
    ∧ ((nodeFromDoc (some (nodeToDoc nodeEx)) = some nodeEx
      ∧ (dbSaveNode [] nodeEx).2 = some { nodeEx with oid := some (freshOid []) }
      ∧ (dbGetNode (dbSaveNode [] nodeEx).1 (some (freshOid []))).1
          = some { nodeEx with oid := some (freshOid []) })
    ∧ (edgeFromDoc (some (edgeToDoc hydratedEdge)) = some hydratedEdge
      ∧ (dbSaveEdge [] hydratedEdge).2
          = some { hydratedEdge with oid := some (freshOid []) }
      ∧ (dbGetEdge (dbSaveEdge [] hydratedEdge).1 (some (freshOid []))).1
          = some { hydratedEdge with oid := some (freshOid []) })) :=
  ⟨⟨rfl, by decide, rfl, rfl, rfl, rfl, by decide, by decide⟩,
   entity_round_trip_nodes_and_hydrated_edges [] [] nodeEx hydratedEdge
     startNodeEx endNodeEx rfl (by decide) rfl rfl rfl rfl (by decide) (by decide)⟩
